import Mathlib

/-!
Shallow embedding of the `http-over-ai` connection-level byte-stream manager
(`Connection` class: `onData` framing, `safeContentLength` post-processing,
`flush` backpressure handling, and the error-response synthesis), together
with models of the JavaScript platform primitives the code relies on
(`TextEncoder`, per-call `TextDecoder`, the case-insensitive regexes
`/Content-Length:\s*\d+/i` and `/Connection:\s*close/i`, and string
`.length` / template interpolation of numbers).

Strings are modelled as `List Char` (Unicode scalar values); byte streams as
`List Nat`.  All recursion is structural (fuel-based where the source loops),
so every definition evaluates by `decide`/`rfl`.
-/

/-! ### Character classes used by the JavaScript regexes -/

/-- ASCII lower-casing, the canonicalisation a non-unicode JS `/i` regex
applies when the pattern is ASCII. -/
def lowerAscii (c : Char) : Char :=
  if 65 ≤ c.toNat ∧ c.toNat ≤ 90 then Char.ofNat (c.toNat + 32) else c

/-- The regex class `\d` (exactly the ASCII digits). -/
def isDigit (c : Char) : Bool :=
  decide (48 ≤ c.toNat ∧ c.toNat ≤ 57)

/-- The regex class `\s` of JavaScript (ASCII whitespace plus the Unicode
space separators, NEL excluded). -/
def isJsWs (c : Char) : Bool :=
  decide (c.toNat = 32 ∨ c.toNat = 9 ∨ c.toNat = 10 ∨ c.toNat = 11 ∨ c.toNat = 12 ∨
    c.toNat = 13 ∨ c.toNat = 160 ∨ c.toNat = 5760 ∨ (8192 ≤ c.toNat ∧ c.toNat ≤ 8202) ∨
    c.toNat = 8232 ∨ c.toNat = 8233 ∨ c.toNat = 8239 ∨ c.toNat = 8287 ∨
    c.toNat = 12288 ∨ c.toNat = 65279)

/-- Length of the maximal run of characters satisfying `p` at the head. -/
def countWhile (p : Char → Bool) : List Char → Nat
  | [] => 0
  | c :: t => if p c then countWhile p t + 1 else 0

/-- The literal of the Content-Length regexes, lower-cased. -/
def clLit : List Char := "content-length:".toList

/-- The replacement text `safeContentLength` inserts before the recomputed
length. -/
def clIns : List Char := "Content-Length: ".toList

/-- The text `safeContentLength` appends (before the recomputed length) when
no Content-Length header matched. -/
def clInsPre : List Char := "\r\nContent-Length: ".toList

/-- Does the (lower-case ASCII) literal `lit` match case-insensitively at the
head of `s`? -/
def litAt (lit s : List Char) : Bool :=
  decide ((s.take lit.length).map lowerAscii = lit)

/-- Numeric value of a digit string, as JavaScript `Number` computes it on a
match of `\d+`. -/
def digitsVal (l : List Char) : Nat :=
  l.foldl (fun a c => a * 10 + (c.toNat - 48)) 0

/-- Attempt to match `/content-length:\s*(\d+)/i` at the head of `s`;
returns (length of the match, numeric value of the digit group). -/
def matchCLAt (s : List Char) : Option (Nat × Nat) :=
  if litAt clLit s then
    let rest := s.drop 15
    let w := countWhile isJsWs rest
    let d := countWhile isDigit (rest.drop w)
    if d = 0 then none
    else some (15 + w + d, digitsVal ((rest.drop w).take d))
  else none

/-- Attempt to match `/connection:\s*close/i` at the head of `s`. -/
def matchConnAt (s : List Char) : Option Unit :=
  if litAt ("connection:".toList) s then
    let w := countWhile isJsWs (s.drop 11)
    if litAt ("close".toList) (s.drop (11 + w)) then some () else none
  else none

/-- Leftmost-match search: the first position of `s` at which the matcher `m`
succeeds, with the matcher's result.  This is how a JS regex without `g`
finds its match. -/
def scanFirst {α : Type} (m : List Char → Option α) : List Char → Option (Nat × α)
  | [] => (m []).map (fun a => (0, a))
  | s@(_ :: t) =>
    match m s with
    | some a => some (0, a)
    | none => (scanFirst m t).map (fun p => (p.1 + 1, p.2))

/-- `/Connection:\s*close/i.test(s)`. -/
def testConnClose (s : List Char) : Bool :=
  (scanFirst matchConnAt s).isSome

/-- The first `/Content-Length:\s*\d+/i` match of `s`:
(start, length, numeric value). -/
def findCL (s : List Char) : Option (Nat × Nat × Nat) :=
  (scanFirst matchCLAt s).map (fun p => (p.1, p.2.1, p.2.2))

/-- The numeric value of the first Content-Length match, if any. -/
def findCLval (s : List Char) : Option Nat :=
  (findCL s).map (fun p => p.2.2)

/-! ### The header/body delimiter and `splitHttp` -/

/-- The header/body delimiter `"\r\n\r\n"`. -/
def delim : List Char := ['\r', '\n', '\r', '\n']

/-- Matcher for the delimiter at the head of `s`. -/
def delimAt (s : List Char) : Option Unit :=
  if s.take 4 = delim then some () else none

/-- `buf.indexOf('\r\n\r\n')` (as `Option` instead of `-1`). -/
def firstDelim (s : List Char) : Option Nat :=
  (scanFirst delimAt s).map (fun p => p.1)

/-- `splitHttp` from the source: split at the first `\r\n\r\n`, returning
the part before it and the part after it. -/
def splitHttp (buf : List Char) : Option (List Char × List Char) :=
  match firstDelim buf with
  | none => none
  | some i => some (buf.take i, buf.drop (i + 4))

/-- The declared body length of a header block: the captured `\d+` of the
first Content-Length match, defaulting to 0 (`clMatch ? Number(clMatch[1]) : 0`). -/
def declaredLen (hdrs : List Char) : Nat :=
  match findCL hdrs with
  | some (_, _, v) => v
  | none => 0

/-! ### The framing loop of `Connection.onData` -/

/-- One iteration of the `while (true)` loop of `onData`: if the buffer
contains a delimiter and at least `declaredLen` characters after it, slice
out one framed message and the remaining buffer.  This is the scalar-value
(code-point) view of the loop; it coincides with the JS computation
whenever the buffered text is BMP-only, since there each character is one
UTF-16 code unit.  The exact code-unit-level loop, faithful also on astral
characters, is `extractStepU` below. -/
def extractStep (buf : List Char) : Option (List Char × List Char) :=
  match splitHttp buf with
  | none => none
  | some (hdrs, rest) =>
    let L := declaredLen hdrs
    if rest.length < L then none
    else some (buf.take (hdrs.length + 4 + L), buf.drop (hdrs.length + 4 + L))

/-- Fuelled version of the full extraction loop. -/
def extractF : Nat → List Char → List (List Char) × List Char
  | 0, buf => ([], buf)
  | f + 1, buf =>
    match extractStep buf with
    | none => ([], buf)
    | some (msg, rest) =>
      let p := extractF f rest
      (msg :: p.1, p.2)

/-- The extraction loop of `onData`: all framed messages obtainable from the
buffer, in order, together with the leftover buffer. -/
def extract (buf : List Char) : List (List Char) × List Char :=
  extractF buf.length buf

/-- One `feed` call of the framer at the text level: append the chunk to the
buffer and run the extraction loop, accumulating emitted messages. -/
def feedStep (st : List (List Char) × List Char) (chunk : List Char) :
    List (List Char) × List Char :=
  let p := extract (st.2 ++ chunk)
  (st.1 ++ p.1, p.2)

/-- Feed a sequence of text chunks to a fresh framer. -/
def feedAll (chunks : List (List Char)) : List (List Char) × List Char :=
  chunks.foldl feedStep ([], [])

/-! ### TextEncoder / TextDecoder models -/

/-- UTF-8 encoding of one scalar value (`TextEncoder`). -/
def utf8Bytes (c : Char) : List Nat :=
  let n := c.toNat
  if n < 128 then [n]
  else if n < 2048 then [192 + n / 64, 128 + n % 64]
  else if n < 65536 then [224 + n / 4096, 128 + n / 64 % 64, 128 + n % 64]
  else [240 + n / 262144, 128 + n / 4096 % 64, 128 + n / 64 % 64, 128 + n % 64]

/-- `new TextEncoder().encode(s)`. -/
def utf8Encode (s : List Char) : List Nat :=
  (s.map utf8Bytes).flatten

/-- The UTF-8 byte length of a string, `new TextEncoder().encode(s).length`. -/
def utf8Len (s : List Char) : Nat :=
  (utf8Encode s).length

/-- UTF-16 code units taken by one scalar value. -/
def utf16Width (c : Char) : Nat :=
  if c.toNat < 65536 then 1 else 2

/-- JavaScript string `.length`: the UTF-16 code-unit count. -/
def utf16Len (s : List Char) : Nat :=
  (s.map utf16Width).sum

/-- U+FFFD REPLACEMENT CHARACTER. -/
def repl : Char := Char.ofNat 65533

/-- A UTF-8 continuation byte. -/
def contB (b : Nat) : Bool := decide (128 ≤ b ∧ b ≤ 191)

/-- Fuelled WHATWG UTF-8 decoder with replacement (errors emit U+FFFD and
resume at the offending byte; a truncated sequence at end of input emits one
U+FFFD). -/
def jsDecodeF : Nat → List Nat → List Char
  | 0, _ => []
  | _ + 1, [] => []
  | f + 1, b :: bs =>
    if b < 128 then Char.ofNat b :: jsDecodeF f bs
    else if 194 ≤ b ∧ b ≤ 223 then
      match bs with
      | [] => [repl]
      | c :: bs2 =>
        if contB c then Char.ofNat ((b - 192) * 64 + (c - 128)) :: jsDecodeF f bs2
        else repl :: jsDecodeF f bs
    else if 224 ≤ b ∧ b ≤ 239 then
      let lo := if b = 224 then 160 else 128
      let hi := if b = 237 then 159 else 191
      match bs with
      | [] => [repl]
      | c1 :: bs1 =>
        if lo ≤ c1 ∧ c1 ≤ hi then
          match bs1 with
          | [] => [repl]
          | c2 :: bs2 =>
            if contB c2 then
              Char.ofNat ((b - 224) * 4096 + (c1 - 128) * 64 + (c2 - 128)) :: jsDecodeF f bs2
            else repl :: jsDecodeF f bs1
        else repl :: jsDecodeF f bs
    else if 240 ≤ b ∧ b ≤ 244 then
      let lo := if b = 240 then 144 else 128
      let hi := if b = 244 then 143 else 191
      match bs with
      | [] => [repl]
      | c1 :: bs1 =>
        if lo ≤ c1 ∧ c1 ≤ hi then
          match bs1 with
          | [] => [repl]
          | c2 :: bs2 =>
            if contB c2 then
              match bs2 with
              | [] => [repl]
              | c3 :: bs3 =>
                if contB c3 then
                  Char.ofNat ((b - 240) * 262144 + (c1 - 128) * 4096 +
                    (c2 - 128) * 64 + (c3 - 128)) :: jsDecodeF f bs3
                else repl :: jsDecodeF f bs2
            else repl :: jsDecodeF f bs1
        else repl :: jsDecodeF f bs
    else repl :: jsDecodeF f bs

/-- `new TextDecoder().decode(bs)`: one whole-input decode per call, as the
source performs on every `data` event. -/
def jsDecode (bs : List Nat) : List Char :=
  jsDecodeF (bs.length + 1) bs

/-- One `onData` call at the byte level: decode the chunk with a fresh
`TextDecoder`, append to the text buffer, run the extraction loop. -/
def feedB (st : List (List Char) × List Char) (chunk : List Nat) :
    List (List Char) × List Char :=
  feedStep st (jsDecode chunk)

/-- Feed a sequence of byte chunks to a fresh framer. -/
def feedAllB (chunks : List (List Nat)) : List (List Char) × List Char :=
  chunks.foldl feedB ([], [])

/-! ### Number-to-string interpolation -/

/-- The decimal digit character for `n < 10`. -/
def digitChar (n : Nat) : Char := Char.ofNat (48 + n)

/-- Fuelled decimal printing. -/
def natCharsF : Nat → Nat → List Char
  | 0, _ => []
  | f + 1, n =>
    if n < 10 then [digitChar n]
    else natCharsF f (n / 10) ++ [digitChar (n % 10)]

/-- Template interpolation of a number into a string. -/
def natToChars (n : Nat) : List Char := natCharsF (n + 1) n

/-! ### `safeContentLength` and the response post-processing -/

/-- `safeContentLength` from the source: recompute the body's UTF-8 byte
length; replace the first `/Content-Length:\s*\d+/i` match of the headers
with `Content-Length: <len>` if one exists, else append
`\r\nContent-Length: <len>`. -/
def safeContentLength (headers body : List Char) : List Char :=
  let len := utf8Len body
  match findCL headers with
  | some (s, l, _) => headers.take s ++ (clIns ++ natToChars len) ++ headers.drop (s + l)
  | none => headers ++ (clInsPre ++ natToChars len)

/-- The post-processing `handleRequest` applies to the responder output: if
it contains the delimiter, normalise the Content-Length header against the
actual body; otherwise pass it through unchanged. -/
def processOut (out : List Char) : List Char :=
  match firstDelim out with
  | none => out
  | some i => safeContentLength (out.take i) (out.drop (i + 4)) ++ delim ++ out.drop (i + 4)

/-! ### The synthesized 500 response of the catch branch -/

/-- The fixed text before the interpolated `msg.length`. -/
def errPre : List Char :=
  ("HTTP/1.1 500 Internal Server Error\r\nContent-Type: text/plain; charset=utf-8\r\nContent-Length: ").toList

/-- The fixed text between the interpolated length and the delimiter. -/
def errPost : List Char := ("\r\nConnection: close").toList

/-- Header block of the synthesized 500 response for error message `msg`. -/
def errHeaders (msg : List Char) : List Char :=
  errPre ++ natToChars (utf16Len msg) ++ errPost

/-- The full synthesized 500 response of the catch branch. -/
def errorResponse (msg : List Char) : List Char :=
  errHeaders msg ++ delim ++ msg

/-! ### The per-connection state machine -/

/-- Conversation roles. -/
inductive Role
  | user
  | assistant
deriving DecidableEq

/-- Per-connection state: the framer's text buffer, the `ArrayBufferSink`
contents (bytes enqueued but not yet accepted by the socket), the bytes the
socket has accepted, the conversation history, the responder calls that have
been issued but whose promise has not settled, the `closing` flag, and
whether `sock.end()` has been called. -/
structure Conn where
  buffer : List Char
  sinkQ : List Nat
  sent : List Nat
  history : List (Role × List Char)
  outstanding : List (List Char)
  closing : Bool
  ended : Bool
deriving DecidableEq

/-- A freshly opened connection. -/
def initConn : Conn :=
  { buffer := [], sinkQ := [], sent := [], history := [], outstanding := [],
    closing := false, ended := false }

/-- `Connection.flush`: take everything out of the sink; if nothing is
pending, end the socket when `closing` is set; otherwise write, with the
socket accepting `accept` bytes (capped at the chunk size), and re-queue the
unwritten remainder. -/
def flushConn (c : Conn) (accept : Nat) : Conn :=
  if c.sinkQ.isEmpty then
    if c.closing then { c with ended := true } else c
  else
    let n := min accept c.sinkQ.length
    { c with sent := c.sent ++ c.sinkQ.take n, sinkQ := c.sinkQ.drop n }

/-- `Connection.onData`: decode the chunk, append to the buffer, frame every
complete message, and for each one (synchronously, in the extraction loop)
push a user turn and issue the responder call — `handleRequest` is invoked
without `await`, so each call is outstanding as soon as its message is
framed. -/
def onDataConn (c : Conn) (bytes : List Nat) : Conn :=
  let p := extract (c.buffer ++ jsDecode bytes)
  { c with
    buffer := p.2,
    history := c.history ++ p.1.map (fun m => (Role.user, m)),
    outstanding := c.outstanding ++ p.1 }

/-- Settlement of the `idx`-th outstanding responder call with output text
`out` (the `try` continuation of `handleRequest`): post-process, set
`closing` if `/Connection:\s*close/i` matches anywhere in the processed
text, push an assistant turn, enqueue the encoded bytes and flush. -/
def doneConn (c : Conn) (idx : Nat) (out : List Char) (accept : Nat) : Conn :=
  if idx < c.outstanding.length then
    let o := processOut out
    flushConn
      { c with
        outstanding := c.outstanding.eraseIdx idx,
        closing := c.closing || testConnClose o,
        history := c.history ++ [(Role.assistant, o)],
        sinkQ := c.sinkQ ++ utf8Encode o } accept
  else c

/-- Rejection of the `idx`-th outstanding responder call with error message
`msg` (the `catch` branch): synthesize the 500 response, set `closing`,
enqueue and flush.  No assistant turn is pushed. -/
def failConn (c : Conn) (idx : Nat) (msg : List Char) (accept : Nat) : Conn :=
  if idx < c.outstanding.length then
    flushConn
      { c with
        outstanding := c.outstanding.eraseIdx idx,
        closing := true,
        sinkQ := c.sinkQ ++ utf8Encode (errorResponse msg) } accept
  else c

/-- Connection events: inbound TCP data, settlement or rejection of an
outstanding responder call (each flushing with a given socket acceptance),
and the socket's drain event. -/
inductive Ev
  | data (bytes : List Nat)
  | done (idx : Nat) (out : List Char) (accept : Nat)
  | fail (idx : Nat) (msg : List Char) (accept : Nat)
  | drain (accept : Nat)

/-- The event-step function of one connection. -/
def stepConn (c : Conn) : Ev → Conn
  | .data bs => onDataConn c bs
  | .done i out a => doneConn c i out a
  | .fail i m a => failConn c i m a
  | .drain a => flushConn c a

/-- Run a connection from the open state through a list of events. -/
def runConn (evs : List Ev) : Conn :=
  evs.foldl stepConn initConn

/-- The bytes an event enqueues to the sink. -/
def enqBytes (c : Conn) : Ev → List Nat
  | .data _ => []
  | .done i out _ => if i < c.outstanding.length then utf8Encode (processOut out) else []
  | .fail i m _ => if i < c.outstanding.length then utf8Encode (errorResponse m) else []
  | .drain _ => []

/-- The bytes enqueued along a whole event trace. -/
def enqAlong (c : Conn) : List Ev → List Nat
  | [] => []
  | e :: t => enqBytes c e ++ enqAlong (stepConn c e) t

/-! ### Leftmost-match characterisation of `scanFirst` -/

theorem scanFirst_some_matches {α : Type} (m : List Char → Option α) :
    ∀ (s : List Char) (i : Nat) (a : α), scanFirst m s = some (i, a) → m (s.drop i) = some a := by
  intro s
  induction s with
  | nil =>
    intro i a h
    cases hm : m [] with
    | none => simp [scanFirst, hm] at h
    | some b =>
      simp [scanFirst, hm] at h
      obtain ⟨h1, h2⟩ := h
      rw [List.drop_nil, hm]
      exact congrArg some h2
  | cons c t ih =>
    intro i a h
    cases hm : m (c :: t) with
    | some b =>
      simp [scanFirst, hm] at h
      rw [← h.1, List.drop_zero, hm, h.2]
    | none =>
      cases hs : scanFirst m t with
      | none => simp [scanFirst, hm, hs] at h
      | some p =>
        simp [scanFirst, hm, hs] at h
        obtain ⟨hi, ha⟩ := h
        rw [← hi, List.drop_succ_cons]
        exact ha ▸ ih p.1 p.2 (by rw [hs])

theorem scanFirst_some_min {α : Type} (m : List Char → Option α) :
    ∀ (s : List Char) (i : Nat) (a : α), scanFirst m s = some (i, a) →
      ∀ j, j < i → m (s.drop j) = none := by
  intro s
  induction s with
  | nil =>
    intro i a h j hj
    cases hm : m [] with
    | none => simp [scanFirst, hm] at h
    | some b =>
      simp [scanFirst, hm] at h
      obtain ⟨h1, h2⟩ := h
      omega
  | cons c t ih =>
    intro i a h j hj
    cases hm : m (c :: t) with
    | some b =>
      simp [scanFirst, hm] at h
      omega
    | none =>
      cases hs : scanFirst m t with
      | none => simp [scanFirst, hm, hs] at h
      | some p =>
        simp [scanFirst, hm, hs] at h
        obtain ⟨hi, _⟩ := h
        cases j with
        | zero => simpa using hm
        | succ j2 =>
          rw [List.drop_succ_cons]
          exact ih p.1 p.2 (by rw [hs]) j2 (by omega)

theorem scanFirst_none {α : Type} (m : List Char → Option α) :
    ∀ (s : List Char), scanFirst m s = none → ∀ j, m (s.drop j) = none := by
  intro s
  induction s with
  | nil =>
    intro h j
    cases hm : m [] with
    | none => simpa [List.drop_nil] using hm
    | some b => simp [scanFirst, hm] at h
  | cons c t ih =>
    intro h j
    cases hm : m (c :: t) with
    | some b => simp [scanFirst, hm] at h
    | none =>
      cases hs : scanFirst m t with
      | none =>
        cases j with
        | zero => simpa using hm
        | succ j2 => rw [List.drop_succ_cons]; exact ih hs j2
      | some p => simp [scanFirst, hm, hs] at h

theorem scanFirst_intro {α : Type} (m : List Char → Option α) :
    ∀ (s : List Char) (i : Nat) (a : α), m (s.drop i) = some a →
      (∀ j, j < i → m (s.drop j) = none) → scanFirst m s = some (i, a) := by
  intro s
  induction s with
  | nil =>
    intro i a h hmin
    cases i with
    | zero => simp [scanFirst, List.drop_nil] at h ⊢; simp [h]
    | succ i2 =>
      have := hmin 0 (by omega)
      rw [List.drop_nil] at h
      rw [List.drop_nil] at this
      rw [this] at h
      exact absurd h (by simp)
  | cons c t ih =>
    intro i a h hmin
    cases i with
    | zero =>
      rw [List.drop_zero] at h
      simp [scanFirst, h]
    | succ i2 =>
      have h0 : m (c :: t) = none := by simpa using hmin 0 (by omega)
      have ht : scanFirst m t = some (i2, a) := by
        apply ih
        · simpa [List.drop_succ_cons] using h
        · intro j hj
          simpa [List.drop_succ_cons] using hmin (j + 1) (by omega)
      simp [scanFirst, h0, ht]

theorem scanFirst_isSome_of {α : Type} (m : List Char → Option α) (s : List Char) (j : Nat)
    (a : α) (h : m (s.drop j) = some a) : (scanFirst m s).isSome = true := by
  cases hs : scanFirst m s with
  | none => rw [scanFirst_none m s hs j] at h; exact absurd h (by simp)
  | some p => rfl

theorem scanFirst_isSome_elim {α : Type} (m : List Char → Option α) (s : List Char)
    (h : (scanFirst m s).isSome = true) : ∃ j a, m (s.drop j) = some a := by
  cases hs : scanFirst m s with
  | none => rw [hs] at h; simp at h
  | some p => exact ⟨p.1, p.2, scanFirst_some_matches m s p.1 p.2 hs⟩

/-! ### Facts about the delimiter search and `splitHttp` -/

theorem firstDelim_some {s : List Char} {i : Nat} (h : firstDelim s = some i) :
    (s.drop i).take 4 = delim ∧ ∀ j, j < i → (s.drop j).take 4 ≠ delim := by
  unfold firstDelim at h
  cases hs : scanFirst delimAt s with
  | none => rw [hs] at h; simp at h
  | some p =>
    rw [hs] at h
    simp at h
    constructor
    · have := scanFirst_some_matches delimAt s p.1 p.2 hs
      rw [h] at this
      unfold delimAt at this
      by_cases hd : (s.drop i).take 4 = delim
      · exact hd
      · rw [if_neg hd] at this; exact absurd this (by simp)
    · intro j hj hcontra
      have := scanFirst_some_min delimAt s p.1 p.2 hs j (by omega)
      unfold delimAt at this
      rw [if_pos hcontra] at this
      exact absurd this (by simp)

theorem firstDelim_intro {s : List Char} {i : Nat} (h : (s.drop i).take 4 = delim)
    (hmin : ∀ j, j < i → (s.drop j).take 4 ≠ delim) : firstDelim s = some i := by
  have : scanFirst delimAt s = some (i, ()) := by
    apply scanFirst_intro
    · unfold delimAt; rw [if_pos h]
    · intro j hj
      unfold delimAt
      rw [if_neg (hmin j hj)]
  unfold firstDelim
  rw [this]
  rfl

theorem take4_delim_length {l : List Char} (h : l.take 4 = delim) : 4 ≤ l.length := by
  have := congrArg List.length h
  rw [List.length_take] at this
  simp [delim] at this
  omega

theorem firstDelim_bound {s : List Char} {i : Nat} (h : firstDelim s = some i) :
    i + 4 ≤ s.length := by
  have h1 := (firstDelim_some h).1
  have := take4_delim_length h1
  rw [List.length_drop] at this
  omega

theorem firstDelim_append {s t : List Char} {i : Nat} (h : firstDelim s = some i) :
    firstDelim (s ++ t) = some i := by
  obtain ⟨hocc, hmin⟩ := firstDelim_some h
  have hb := firstDelim_bound h
  apply firstDelim_intro
  · rw [List.drop_append_of_le_length (by omega),
      List.take_append_of_le_length (by rw [List.length_drop]; omega)]
    exact hocc
  · intro j hj hcontra
    rw [List.drop_append_of_le_length (by omega),
      List.take_append_of_le_length (by rw [List.length_drop]; omega)] at hcontra
    exact hmin j hj hcontra

theorem splitHttp_some {buf h r : List Char} (hs : splitHttp buf = some (h, r)) :
    buf = h ++ delim ++ r ∧ firstDelim buf = some h.length ∧ h.length + 4 ≤ buf.length ∧
      h = buf.take h.length ∧ r = buf.drop (h.length + 4) := by
  unfold splitHttp at hs
  cases hf : firstDelim buf with
  | none => rw [hf] at hs; exact absurd hs (by simp)
  | some i =>
    rw [hf] at hs
    simp at hs
    obtain ⟨hh, hr⟩ := hs
    have hb := firstDelim_bound hf
    have hlen : h.length = i := by
      rw [← hh, List.length_take]; omega
    have hocc := (firstDelim_some hf).1
    have e3 : List.drop 4 (List.drop i buf) = List.drop (i + 4) buf := by
      rw [List.drop_drop, Nat.add_comm]
    have hdecomp : buf = h ++ delim ++ r := by
      calc buf = List.take i buf ++ List.drop i buf := (List.take_append_drop i buf).symm
        _ = List.take i buf ++
            (List.take 4 (List.drop i buf) ++ List.drop 4 (List.drop i buf)) := by
            rw [List.take_append_drop 4 (List.drop i buf)]
        _ = h ++ (delim ++ r) := by rw [hh, hocc, e3, hr]
        _ = h ++ delim ++ r := (List.append_assoc h delim r).symm
    refine ⟨hdecomp, ?_, by omega, by rw [hlen, ← hh], by rw [hlen, ← hr]⟩
    rw [hlen]
    try exact hf

theorem splitHttp_append {b c h r : List Char} (hs : splitHttp b = some (h, r)) :
    splitHttp (b ++ c) = some (h, r ++ c) := by
  obtain ⟨hdec, hf, hb, hh, hr⟩ := splitHttp_some hs
  unfold splitHttp
  rw [firstDelim_append hf]
  have h1 : (b ++ c).take h.length = h := by
    rw [List.take_append_of_le_length (by omega), ← hh]
  have h2 : (b ++ c).drop (h.length + 4) = r ++ c := by
    rw [List.drop_append_of_le_length (by omega), ← hr]
  show some ((b ++ c).take h.length, (b ++ c).drop (h.length + 4)) = some (h, r ++ c)
  rw [h1, h2]

theorem extractStep_nil : extractStep [] = none := by decide

theorem extractStep_some {buf m rest : List Char} (h : extractStep buf = some (m, rest)) :
    m ++ rest = buf ∧ rest.length < buf.length ∧
      ∀ c, extractStep (buf ++ c) = some (m, rest ++ c) := by
  unfold extractStep at h
  cases hsp : splitHttp buf with
  | none => rw [hsp] at h; exact absurd h (by simp)
  | some p =>
    obtain ⟨hd, r⟩ := p
    rw [hsp] at h
    simp at h
    obtain ⟨hdec, hf, hbound, hhd, hrr⟩ := splitHttp_some hsp
    obtain ⟨hge, hm, hrest⟩ := h
    have hd4 : delim.length = 4 := rfl
    have hlenbuf : buf.length = hd.length + 4 + r.length := by
      rw [hdec, List.length_append, List.length_append, hd4]
    have hK : hd.length + 4 + declaredLen hd ≤ buf.length := by omega
    refine ⟨by rw [← hm, ← hrest, List.take_append_drop], ?_, ?_⟩
    · rw [← hrest, List.length_drop]; omega
    · intro c
      unfold extractStep
      rw [splitHttp_append hsp]
      show (if (r ++ c).length < declaredLen hd then none
        else some ((buf ++ c).take (hd.length + 4 + declaredLen hd),
          (buf ++ c).drop (hd.length + 4 + declaredLen hd))) = some (m, rest ++ c)
      rw [if_neg (by rw [List.length_append]; omega)]
      rw [List.take_append_of_le_length hK, List.drop_append_of_le_length hK]
      rw [hm, hrest]

theorem extractF_fuel : ∀ (f g : Nat) (buf : List Char), buf.length ≤ f → buf.length ≤ g →
    extractF f buf = extractF g buf := by
  intro f
  induction f with
  | zero =>
    intro g buf hf hg
    have hnil : buf = [] := List.eq_nil_of_length_eq_zero (by omega)
    subst hnil
    cases g with
    | zero => rfl
    | succ g2 => simp [extractF, extractStep_nil]
  | succ f2 ih =>
    intro g buf hf hg
    cases g with
    | zero =>
      have hnil : buf = [] := List.eq_nil_of_length_eq_zero (by omega)
      subst hnil
      simp [extractF, extractStep_nil]
    | succ g2 =>
      cases hst : extractStep buf with
      | none => simp [extractF, hst]
      | some p =>
        obtain ⟨m, rest⟩ := p
        obtain ⟨_, hlen, _⟩ := extractStep_some hst
        simp only [extractF, hst]
        rw [ih g2 rest (by omega) (by omega)]

theorem extract_unfold (buf : List Char) :
    extract buf = match extractStep buf with
      | none => ([], buf)
      | some p => (p.1 :: (extract p.2).1, (extract p.2).2) := by
  cases hst : extractStep buf with
  | none =>
    cases buf with
    | nil => rfl
    | cons c t => simp [extract, extractF, hst]
  | some p =>
    obtain ⟨m, rest⟩ := p
    obtain ⟨_, hlen, _⟩ := extractStep_some hst
    cases buf with
    | nil => rw [extractStep_nil] at hst; exact absurd hst (by simp)
    | cons c t =>
      simp only [extract, List.length_cons, extractF, hst]
      rw [extractF_fuel t.length rest.length rest (by simpa using Nat.lt_succ_iff.mp hlen) le_rfl]

theorem extract_append : ∀ (n : Nat) (b c : List Char), b.length ≤ n →
    extract (b ++ c) = ((extract b).1 ++ (extract ((extract b).2 ++ c)).1,
      (extract ((extract b).2 ++ c)).2) := by
  intro n
  induction n with
  | zero =>
    intro b c h
    have hnil : b = [] := List.eq_nil_of_length_eq_zero (by omega)
    subst hnil
    simp [extract, extractF]
  | succ n2 ih =>
    intro b c h
    cases hst : extractStep b with
    | none =>
      have h1 : extract b = ([], b) := by rw [extract_unfold, hst]
      rw [h1]
      simp
    | some p =>
      obtain ⟨m, rest⟩ := p
      obtain ⟨hmr, hlen, happ⟩ := extractStep_some hst
      have h1 : extract b = (m :: (extract rest).1, (extract rest).2) := by
        rw [extract_unfold, hst]
      have h2 : extract (b ++ c) = (m :: (extract (rest ++ c)).1, (extract (rest ++ c)).2) := by
        rw [extract_unfold, happ c]
      rw [h2, h1, ih rest c (by omega)]
      simp

theorem extract_leftover : ∀ (n : Nat) (buf : List Char), buf.length ≤ n →
    extractStep (extract buf).2 = none := by
  intro n
  induction n with
  | zero =>
    intro buf h
    have hnil : buf = [] := List.eq_nil_of_length_eq_zero (by omega)
    subst hnil
    simp [extract, extractF, extractStep_nil]
  | succ n2 ih =>
    intro buf h
    cases hst : extractStep buf with
    | none => rw [extract_unfold, hst]; exact hst
    | some p =>
      obtain ⟨m, rest⟩ := p
      obtain ⟨_, hlen, _⟩ := extractStep_some hst
      rw [extract_unfold, hst]
      exact ih rest (by omega)

theorem feedAll_extract : ∀ (chunks : List (List Char)) (ms : List (List Char)) (b : List Char),
    extractStep b = none →
    chunks.foldl feedStep (ms, b) =
      (ms ++ (extract (b ++ chunks.flatten)).1, (extract (b ++ chunks.flatten)).2) := by
  intro chunks
  induction chunks with
  | nil =>
    intro ms b hb
    have h1 : extract b = ([], b) := by rw [extract_unfold, hb]
    simp [h1]
  | cons ch t ih =>
    intro ms b hb
    rw [List.foldl_cons]
    have hstep : feedStep (ms, b) ch = (ms ++ (extract (b ++ ch)).1, (extract (b ++ ch)).2) := rfl
    rw [hstep, ih _ _ (extract_leftover (b ++ ch).length _ le_rfl)]
    have hA := extract_append (b ++ ch).length (b ++ ch) t.flatten le_rfl
    rw [List.flatten_cons, ← List.append_assoc, hA]
    simp [List.append_assoc]

/-! ### Runs, literals and decimal digits -/

theorem countWhile_le (p : Char → Bool) : ∀ l : List Char, countWhile p l ≤ l.length := by
  intro l
  induction l with
  | nil => simp [countWhile]
  | cons c t ih =>
    by_cases hc : p c = true
    · simp [countWhile, hc]; omega
    · have hc2 : p c = false := by revert hc; cases p c <;> simp
      simp [countWhile, hc2]

theorem countWhile_append (p : Char → Bool) : ∀ (u v : List Char),
    countWhile p (u ++ v) =
      if countWhile p u = u.length then u.length + countWhile p v else countWhile p u := by
  intro u
  induction u with
  | nil => intro v; simp [countWhile]
  | cons c t ih =>
    intro v
    by_cases hc : p c = true
    · by_cases ht : countWhile p t = t.length
      · simp [countWhile, hc, ih v, ht, List.length_cons]
        omega
      · have hno : ¬(countWhile p t + 1 = t.length + 1) := by omega
        simp [countWhile, hc, ih v, ht, hno]
    · have hc2 : p c = false := by revert hc; cases p c <;> simp
      have hno : ¬((0 : Nat) = t.length + 1) := by omega
      simp [countWhile, hc2, hno]

theorem countWhile_eq_length (p : Char → Bool) : ∀ l : List Char,
    (∀ c ∈ l, p c = true) → countWhile p l = l.length := by
  intro l
  induction l with
  | nil => intro _; rfl
  | cons c t ih =>
    intro h
    have hc := h c (by simp)
    simp [countWhile, hc, ih (fun x hx => h x (by simp [hx]))]

theorem countWhile_cons_false {p : Char → Bool} {c : Char} (t : List Char) (h : p c = false) :
    countWhile p (c :: t) = 0 := by
  simp [countWhile, h]

theorem countWhile_stop (p : Char → Bool) : ∀ l : List Char, countWhile p l < l.length →
    ∃ c t2, l.drop (countWhile p l) = c :: t2 ∧ p c = false := by
  intro l
  induction l with
  | nil => simp [countWhile]
  | cons c t ih =>
    intro h
    by_cases hc : p c = true
    · rw [countWhile, if_pos hc] at h ⊢
      rw [List.drop_succ_cons]
      rw [List.length_cons] at h
      exact ih (by omega)
    · have hc2 : p c = false := by revert hc; cases p c <;> simp
      rw [countWhile_cons_false t hc2, List.drop_zero]
      exact ⟨c, t, rfl, hc2⟩

theorem litAt_append {lit u v : List Char} (h : lit.length ≤ u.length) :
    litAt lit (u ++ v) = litAt lit u := by
  unfold litAt
  rw [List.take_append_of_le_length h]

theorem digitChar_toNat : ∀ n, n < 10 → (digitChar n).toNat = 48 + n := by decide

theorem natCharsF_spec : ∀ (f n : Nat), n < f →
    natCharsF f n ≠ [] ∧ (∀ c ∈ natCharsF f n, isDigit c = true) ∧
      digitsVal (natCharsF f n) = n := by
  intro f
  induction f with
  | zero => intro n h; omega
  | succ f2 ih =>
    intro n h
    by_cases h10 : n < 10
    · rw [natCharsF, if_pos h10]
      have ht := digitChar_toNat n h10
      refine ⟨by simp, ?_, ?_⟩
      · intro c hc
        rw [List.mem_singleton] at hc
        subst hc
        simp [isDigit, ht]
        omega
      · simp [digitsVal, List.foldl, ht]
    · rw [natCharsF, if_neg h10]
      have hpos : 0 < n := by omega
      have hdivlt : n / 10 < n := Nat.div_lt_self hpos (by omega)
      obtain ⟨hne, hdig, hval⟩ := ih (n / 10) (by omega)
      have hm10 : n % 10 < 10 := Nat.mod_lt n (by omega)
      have htm := digitChar_toNat (n % 10) hm10
      refine ⟨by simp, ?_, ?_⟩
      · intro c hc
        rw [List.mem_append] at hc
        rcases hc with hc | hc
        · exact hdig c hc
        · rw [List.mem_singleton] at hc
          subst hc
          simp [isDigit, htm]
          omega
      · rw [digitsVal, List.foldl_append]
        have : List.foldl (fun a c => a * 10 + (c.toNat - 48)) 0 (natCharsF f2 (n / 10)) = n / 10 := hval
        rw [this]
        simp [List.foldl, htm]
        have hdm := Nat.div_add_mod n 10
        omega

theorem natToChars_spec (n : Nat) :
    natToChars n ≠ [] ∧ (∀ c ∈ natToChars n, isDigit c = true) ∧
      digitsVal (natToChars n) = n :=
  natCharsF_spec (n + 1) n (by omega)

theorem isDigit_not_ws {c : Char} (h : isDigit c = true) : isJsWs c = false := by
  simp [isDigit] at h
  simp [isJsWs]
  omega

/-! ### Extracting single characters from list equations -/

theorem take4_get {l : List Char} (h : l.take 4 = delim) (k : Nat) (hk : k < 4) :
    l[k]? = delim[k]? := by
  have := congrArg (fun x : List Char => x[k]?) h
  simpa [List.getElem?_take, hk] using this

/-! ### Analysis of the Content-Length matcher -/

theorem foldC_facts {x : Char} (h : lowerAscii x = 'c') :
    isJsWs x = false ∧ isDigit x = false := by
  unfold lowerAscii at h
  by_cases hAZ : 65 ≤ x.toNat ∧ x.toNat ≤ 90
  · constructor
    · simp [isJsWs]; omega
    · simp [isDigit]; omega
  · rw [if_neg hAZ] at h
    subst h
    exact ⟨by decide, by decide⟩

theorem litAt_clLit_head {x : List Char} (h : litAt clLit x = true) :
    ∃ c t2, x = c :: t2 ∧ lowerAscii c = 'c' := by
  unfold litAt at h
  rw [decide_eq_true_eq] at h
  cases x with
  | nil => exact absurd h (by decide)
  | cons c t2 =>
    refine ⟨c, t2, rfl, ?_⟩
    have hcl : clLit = 'c' :: ("ontent-length:".toList) := rfl
    have h15 : clLit.length = 15 := rfl
    rw [h15, List.take_succ_cons, List.map_cons, hcl] at h
    injection h

theorem matchCLAt_litAt_false {s0 : List Char} (h : litAt clLit s0 = false) :
    matchCLAt s0 = none := by
  unfold matchCLAt
  simp [h]

theorem matchCLAt_build {s0 : List Char} (hlit : litAt clLit s0 = true) :
    matchCLAt s0 =
      (if countWhile isDigit ((s0.drop 15).drop (countWhile isJsWs (s0.drop 15))) = 0 then none
       else some (15 + countWhile isJsWs (s0.drop 15) +
           countWhile isDigit ((s0.drop 15).drop (countWhile isJsWs (s0.drop 15))),
         digitsVal (((s0.drop 15).drop (countWhile isJsWs (s0.drop 15))).take
           (countWhile isDigit ((s0.drop 15).drop (countWhile isJsWs (s0.drop 15))))))) := by
  unfold matchCLAt
  rw [hlit]
  simp

theorem litAt_short_notmem {u : List Char} {x : Char} (t2 : List Char)
    (hlen : u.length < 15) (hx : lowerAscii x ∉ clLit) :
    litAt clLit (u ++ x :: t2) = false := by
  by_contra hcon
  have h : litAt clLit (u ++ x :: t2) = true := by
    revert hcon; cases litAt clLit (u ++ x :: t2) <;> simp
  unfold litAt at h
  rw [decide_eq_true_eq] at h
  have h15 : clLit.length = 15 := rfl
  rw [h15] at h
  have hget := congrArg (fun l : List Char => l[u.length]?) h
  simp only [List.getElem?_map, List.getElem?_take, hlen, if_pos] at hget
  rw [List.getElem?_append_right (by omega)] at hget
  simp at hget
  apply hx
  rw [List.mem_iff_getElem?]
  exact ⟨u.length, hget.symm⟩

theorem litAt_short_c {u : List Char} {x : Char} (t2 : List Char) (hu : u ≠ [])
    (hlen : u.length < 15) (hx : lowerAscii x = 'c') :
    litAt clLit (u ++ x :: t2) = false := by
  by_contra hcon
  have h : litAt clLit (u ++ x :: t2) = true := by
    revert hcon; cases litAt clLit (u ++ x :: t2) <;> simp
  unfold litAt at h
  rw [decide_eq_true_eq] at h
  have h15 : clLit.length = 15 := rfl
  rw [h15] at h
  have hget := congrArg (fun l : List Char => l[u.length]?) h
  simp only [List.getElem?_map, List.getElem?_take, hlen, if_pos] at hget
  rw [List.getElem?_append_right (by omega)] at hget
  simp [hx] at hget
  have hul : 1 ≤ u.length := by
    cases u with
    | nil => exact absurd rfl hu
    | cons a b => simp
  have hno : ∀ k, 1 ≤ k → k < 15 → ¬(clLit[k]? = some 'c') := by decide
  exact hno u.length hul hlen hget.symm

theorem matchCLAt_canonical (n : Nat) (post : List Char)
    (hpost : post = [] ∨ ∃ c t2, post = c :: t2 ∧ isDigit c = false) :
    matchCLAt (clIns ++ (natToChars n ++ post)) = some (16 + (natToChars n).length, n) := by
  obtain ⟨hne, hdig, hval⟩ := natToChars_spec n
  obtain ⟨d0, D1, hD⟩ : ∃ d0 D1, natToChars n = d0 :: D1 := by
    cases hh : natToChars n with
    | nil => exact absurd hh hne
    | cons a b => exact ⟨a, b, rfl⟩
  have hd0 : isDigit d0 = true := hdig d0 (by rw [hD]; simp)
  have hlit : litAt clLit (clIns ++ (natToChars n ++ post)) = true := by
    rw [litAt_append (by decide)]
    decide
  rw [matchCLAt_build hlit]
  have hrest : (clIns ++ (natToChars n ++ post)).drop 15 = ' ' :: (natToChars n ++ post) := by
    rw [List.drop_append_of_le_length (by decide)]
    rfl
  rw [hrest]
  have hws : countWhile isJsWs (' ' :: (natToChars n ++ post)) = 1 := by
    have h2 : isJsWs d0 = false := isDigit_not_ws hd0
    have h1 : isJsWs ' ' = true := by decide
    rw [hD]
    simp [countWhile, List.cons_append, h2, h1]
  rw [hws]
  have hdrop1 : (' ' :: (natToChars n ++ post)).drop 1 = natToChars n ++ post := rfl
  rw [hdrop1]
  have hcp : countWhile isDigit post = 0 := by
    rcases hpost with hp | ⟨c, t2, hp, hc⟩
    · rw [hp]; rfl
    · rw [hp]; exact countWhile_cons_false t2 hc
  have hcwD : countWhile isDigit (natToChars n ++ post) = (natToChars n).length := by
    rw [countWhile_append, countWhile_eq_length isDigit (natToChars n) hdig, if_pos rfl, hcp]
    omega
  rw [hcwD]
  have hDne0 : (natToChars n).length ≠ 0 := by rw [hD]; simp
  rw [if_neg hDne0]
  rw [List.take_left, hval]

theorem matchCLAt_some_struct {s0 : List Char} {l v : Nat} (h : matchCLAt s0 = some (l, v)) :
    litAt clLit s0 = true ∧
      0 < countWhile isDigit ((s0.drop 15).drop (countWhile isJsWs (s0.drop 15))) ∧
      l = 15 + countWhile isJsWs (s0.drop 15) +
        countWhile isDigit ((s0.drop 15).drop (countWhile isJsWs (s0.drop 15))) ∧
      v = digitsVal (((s0.drop 15).drop (countWhile isJsWs (s0.drop 15))).take
        (countWhile isDigit ((s0.drop 15).drop (countWhile isJsWs (s0.drop 15))))) := by
  by_cases hlit : litAt clLit s0 = true
  · rw [matchCLAt_build hlit] at h
    by_cases hd : countWhile isDigit ((s0.drop 15).drop (countWhile isJsWs (s0.drop 15))) = 0
    · rw [if_pos hd] at h; exact absurd h (by simp)
    · rw [if_neg hd] at h
      have h2 := Option.some.inj h
      refine ⟨hlit, Nat.pos_of_ne_zero hd, ?_, ?_⟩
      · exact (congrArg Prod.fst h2).symm
      · exact (congrArg Prod.snd h2).symm
  · have hf : litAt clLit s0 = false := by revert hlit; cases litAt clLit s0 <;> simp
    rw [matchCLAt_litAt_false hf] at h
    exact absurd h (by simp)

theorem countWhile_append_blocked {p : Char → Bool} {a : List Char} {x : Char} (t2 : List Char)
    (hx : p x = false) : countWhile p (a ++ x :: t2) = countWhile p a := by
  rw [countWhile_append, countWhile_cons_false t2 hx]
  by_cases hh : countWhile p a = a.length
  · rw [if_pos hh]; omega
  · rw [if_neg hh]

theorem litAt_clLit_len {x : List Char} (h : litAt clLit x = true) : 15 ≤ x.length := by
  unfold litAt at h
  rw [decide_eq_true_eq] at h
  have := congrArg List.length h
  rw [List.length_map, List.length_take] at this
  have h15 : clLit.length = 15 := rfl
  rw [h15] at this
  omega

theorem matchCLAt_congr_c {u : List Char} {cv cw2 : Char} (tv tw : List Char) (hu : u ≠ [])
    (hcv : lowerAscii cv = 'c') (hcw : lowerAscii cw2 = 'c') :
    matchCLAt (u ++ cv :: tv) = matchCLAt (u ++ cw2 :: tw) := by
  obtain ⟨hwsv, hdgv⟩ := foldC_facts hcv
  obtain ⟨hwsw, hdgw⟩ := foldC_facts hcw
  have h15 : clLit.length = 15 := rfl
  by_cases hle : 15 ≤ u.length
  · have hlv : litAt clLit (u ++ cv :: tv) = litAt clLit u := litAt_append (by omega)
    have hlw : litAt clLit (u ++ cw2 :: tw) = litAt clLit u := litAt_append (by omega)
    by_cases hlit : litAt clLit u = true
    · rw [matchCLAt_build (by rw [hlv]; exact hlit), matchCLAt_build (by rw [hlw]; exact hlit)]
      rw [List.drop_append_of_le_length hle, List.drop_append_of_le_length hle]
      rw [countWhile_append_blocked tv hwsv, countWhile_append_blocked tw hwsw]
      by_cases hWa : countWhile isJsWs (u.drop 15) = (u.drop 15).length
      · rw [hWa, List.drop_left, List.drop_left]
        rw [countWhile_cons_false tv hdgv, countWhile_cons_false tw hdgw]
        simp
      · have hWlt : countWhile isJsWs (u.drop 15) < (u.drop 15).length :=
          lt_of_le_of_ne (countWhile_le isJsWs (u.drop 15)) hWa
        rw [List.drop_append_of_le_length (by omega), List.drop_append_of_le_length (by omega)]
        rw [countWhile_append_blocked tv hdgv, countWhile_append_blocked tw hdgw]
        have hdle : countWhile isDigit ((u.drop 15).drop (countWhile isJsWs (u.drop 15))) ≤
            ((u.drop 15).drop (countWhile isJsWs (u.drop 15))).length := countWhile_le _ _
        rw [List.take_append_of_le_length hdle, List.take_append_of_le_length hdle]
    · have hlf : litAt clLit u = false := by revert hlit; cases litAt clLit u <;> simp
      rw [matchCLAt_litAt_false (by rw [hlv, hlf]), matchCLAt_litAt_false (by rw [hlw, hlf])]
  · have h1 : litAt clLit (u ++ cv :: tv) = false := litAt_short_c tv hu (by omega) hcv
    have h2 : litAt clLit (u ++ cw2 :: tw) = false := litAt_short_c tw hu (by omega) hcw
    rw [matchCLAt_litAt_false h1, matchCLAt_litAt_false h2]

theorem matchCLAt_append_ins {u : List Char} (n : Nat) (h : matchCLAt u = none) :
    matchCLAt (u ++ (clInsPre ++ natToChars n)) = none := by
  have h15 : clLit.length = 15 := rfl
  by_cases hle : 15 ≤ u.length
  · have hlv : litAt clLit (u ++ (clInsPre ++ natToChars n)) = litAt clLit u :=
      litAt_append (by omega)
    by_cases hlit : litAt clLit u = true
    · rw [matchCLAt_build hlit] at h
      by_cases hd : countWhile isDigit ((u.drop 15).drop (countWhile isJsWs (u.drop 15))) = 0
      · rw [matchCLAt_build (by rw [hlv]; exact hlit)]
        rw [List.drop_append_of_le_length hle]
        rw [countWhile_append]
        by_cases hWa : countWhile isJsWs (u.drop 15) = (u.drop 15).length
        · rw [if_pos hWa]
          have hcwi : countWhile isJsWs (clInsPre ++ natToChars n) = 2 := by
            rw [countWhile_append]
            have hc2 : countWhile isJsWs clInsPre = 2 := by decide
            have hne18 : ¬(countWhile isJsWs clInsPre = clInsPre.length) := by decide
            rw [if_neg hne18, hc2]
          rw [hcwi]
          have hd2 : (u.drop 15 ++ (clInsPre ++ natToChars n)).drop ((u.drop 15).length + 2) =
              (clInsPre ++ natToChars n).drop 2 := List.drop_append 2
          rw [hd2]
          have hd3 : (clInsPre ++ natToChars n).drop 2 = clIns ++ natToChars n := by
            rw [List.drop_append_of_le_length (by decide)]
            rfl
          rw [hd3]
          have hcd : countWhile isDigit (clIns ++ natToChars n) = 0 := by
            have hcons : clIns ++ natToChars n =
                'C' :: (("ontent-Length: ".toList) ++ natToChars n) := rfl
            rw [hcons]
            exact countWhile_cons_false _ (by decide)
          rw [hcd]
          simp
        · rw [if_neg hWa]
          have hWlt : countWhile isJsWs (u.drop 15) < (u.drop 15).length :=
            lt_of_le_of_ne (countWhile_le isJsWs (u.drop 15)) hWa
          rw [List.drop_append_of_le_length (by omega)]
          rw [countWhile_append, hd]
          have hlen0 : ¬((0 : Nat) =
              (List.drop (countWhile isJsWs (List.drop 15 u)) (List.drop 15 u)).length) := by
            rw [List.length_drop]; omega
          rw [if_neg hlen0]
          simp
      · rw [if_neg hd] at h
        exact absurd h (by simp)
    · have hlf : litAt clLit u = false := by revert hlit; cases litAt clLit u <;> simp
      exact matchCLAt_litAt_false (by rw [hlv, hlf])
  · have hcons : clInsPre ++ natToChars n =
        '\r' :: (("\nContent-Length: ".toList) ++ natToChars n) := rfl
    rw [hcons]
    exact matchCLAt_litAt_false (litAt_short_notmem _ (by omega) (by decide))

theorem findCL_none_elim {s0 : List Char} (h : findCL s0 = none) :
    ∀ j, matchCLAt (s0.drop j) = none := by
  have hs : scanFirst matchCLAt s0 = none := by
    cases hs : scanFirst matchCLAt s0 with
    | none => rfl
    | some p =>
      unfold findCL at h
      rw [hs] at h
      exact absurd h (by simp)
  exact scanFirst_none matchCLAt s0 hs

theorem findCL_some_elim {s0 : List Char} {s l v : Nat} (h : findCL s0 = some (s, l, v)) :
    scanFirst matchCLAt s0 = some (s, (l, v)) := by
  unfold findCL at h
  cases hs : scanFirst matchCLAt s0 with
  | none => rw [hs] at h; exact absurd h (by simp)
  | some p =>
    obtain ⟨p1, p2, p3⟩ := p
    rw [hs] at h
    simp at h
    obtain ⟨h1, h2, h3⟩ := h
    rw [h1, h2, h3]

theorem findCLval_of_scan {s0 : List Char} {i l v : Nat}
    (h : scanFirst matchCLAt s0 = some (i, (l, v))) : findCLval s0 = some v := by
  unfold findCLval findCL
  rw [h]
  rfl

theorem findCLval_safeContentLength (h b : List Char) :
    findCLval (safeContentLength h b) = some (utf8Len b) := by
  cases hcl : findCL h with
  | none =>
    have hres : safeContentLength h b = h ++ (clInsPre ++ natToChars (utf8Len b)) := by
      unfold safeContentLength
      rw [hcl]
    rw [hres]
    have hmin := findCL_none_elim hcl
    have hdropPos : (h ++ (clInsPre ++ natToChars (utf8Len b))).drop (h.length + 2) =
        clIns ++ natToChars (utf8Len b) := by
      rw [List.drop_append 2, List.drop_append_of_le_length (by decide)]
      rfl
    have hcanon := matchCLAt_canonical (utf8Len b) [] (Or.inl rfl)
    rw [List.append_nil] at hcanon
    have hmatch : matchCLAt ((h ++ (clInsPre ++ natToChars (utf8Len b))).drop (h.length + 2)) =
        some (16 + (natToChars (utf8Len b)).length, utf8Len b) := by
      rw [hdropPos]
      exact hcanon
    have hminall : ∀ j, j < h.length + 2 →
        matchCLAt ((h ++ (clInsPre ++ natToChars (utf8Len b))).drop j) = none := by
      intro j hj
      by_cases hjh : j ≤ h.length
      · rw [List.drop_append_of_le_length hjh]
        exact matchCLAt_append_ins (utf8Len b) (hmin j)
      · have hj1 : j = h.length + 1 := by omega
        subst hj1
        rw [List.drop_append 1]
        have hd1 : (clInsPre ++ natToChars (utf8Len b)).drop 1 =
            ("\nContent-Length: ".toList) ++ natToChars (utf8Len b) := by
          rw [List.drop_append_of_le_length (by decide)]
          rfl
        rw [hd1]
        apply matchCLAt_litAt_false
        rw [litAt_append (by decide)]
        decide
    exact findCLval_of_scan (scanFirst_intro matchCLAt _ (h.length + 2) _ hmatch hminall)
  | some p =>
    obtain ⟨s, l, v⟩ := p
    have hres : safeContentLength h b =
        h.take s ++ (clIns ++ natToChars (utf8Len b)) ++ h.drop (s + l) := by
      unfold safeContentLength
      rw [hcl]
    rw [hres]
    have hscan := findCL_some_elim hcl
    have hmatch0 : matchCLAt (h.drop s) = some (l, v) :=
      scanFirst_some_matches matchCLAt h s (l, v) hscan
    have hmin0 : ∀ j, j < s → matchCLAt (h.drop j) = none :=
      scanFirst_some_min matchCLAt h s (l, v) hscan
    obtain ⟨hlit, hdpos, hleq, hveq⟩ := matchCLAt_some_struct hmatch0
    have h15le : 15 ≤ (h.drop s).length := litAt_clLit_len hlit
    have hsle : s + 15 ≤ h.length := by
      rw [List.length_drop] at h15le
      omega
    have htks : (h.take s).length = s := by
      rw [List.length_take]
      omega
    set w := countWhile isJsWs ((h.drop s).drop 15) with hw
    set d := countWhile isDigit (((h.drop s).drop 15).drop w) with hd
    have hRd : (((h.drop s).drop 15).drop w).drop d = h.drop (s + l) := by
      rw [List.drop_drop, List.drop_drop, List.drop_drop]
      congr 1
      omega
    have hdle : d ≤ (((h.drop s).drop 15).drop w).length := by
      rw [hd]
      exact countWhile_le isDigit _
    have hpost : h.drop (s + l) = [] ∨
        ∃ c t2, h.drop (s + l) = c :: t2 ∧ isDigit c = false := by
      by_cases hfull : d = (((h.drop s).drop 15).drop w).length
      · left
        rw [← hRd, hfull]
        exact List.drop_length _
      · right
        obtain ⟨c, t2, hct, hcd⟩ := countWhile_stop isDigit (((h.drop s).drop 15).drop w)
          (by rw [← hd]; omega)
        rw [← hd] at hct
        rw [hRd] at hct
        exact ⟨c, t2, hct, hcd⟩
    have hcanon := matchCLAt_canonical (utf8Len b) (h.drop (s + l)) hpost
    have hdropS : (h.take s ++ (clIns ++ natToChars (utf8Len b)) ++ h.drop (s + l)).drop s =
        (clIns ++ natToChars (utf8Len b)) ++ h.drop (s + l) := by
      rw [List.append_assoc]
      have hdl := List.drop_left (h.take s)
        ((clIns ++ natToChars (utf8Len b)) ++ h.drop (s + l))
      rw [htks] at hdl
      exact hdl
    have hmatch : matchCLAt
        ((h.take s ++ (clIns ++ natToChars (utf8Len b)) ++ h.drop (s + l)).drop s) =
        some (16 + (natToChars (utf8Len b)).length, utf8Len b) := by
      rw [hdropS, List.append_assoc]
      exact hcanon
    obtain ⟨cm, tm, hcm, hfoldm⟩ := litAt_clLit_head hlit
    have hminall : ∀ j, j < s →
        matchCLAt ((h.take s ++ (clIns ++ natToChars (utf8Len b)) ++ h.drop (s + l)).drop j) =
          none := by
      intro j hj
      have hdropJ : (h.take s ++ (clIns ++ natToChars (utf8Len b)) ++ h.drop (s + l)).drop j =
          (h.take s).drop j ++ ((clIns ++ natToChars (utf8Len b)) ++ h.drop (s + l)) := by
        rw [List.append_assoc, List.drop_append_of_le_length (by rw [htks]; omega)]
      rw [hdropJ]
      have hBC : (clIns ++ natToChars (utf8Len b)) ++ h.drop (s + l) =
          'C' :: ((("ontent-Length: ".toList) ++ natToChars (utf8Len b)) ++ h.drop (s + l)) := rfl
      rw [hBC]
      have hne : (h.take s).drop j ≠ [] := by
        intro hcon
        have hlc := congrArg List.length hcon
        rw [List.length_drop, htks] at hlc
        simp at hlc
        omega
      have hC : lowerAscii 'C' = 'c' := by decide
      have hcongr := matchCLAt_congr_c
        ((("ontent-Length: ".toList) ++ natToChars (utf8Len b)) ++ h.drop (s + l)) tm hne
        hC hfoldm
      rw [hcongr]
      have hid : (h.take s).drop j ++ h.drop s = h.drop j := by
        conv_rhs => rw [← List.take_append_drop s h]
        rw [List.drop_append_of_le_length (by rw [htks]; omega)]
      rw [hcm] at hid
      rw [hid]
      exact hmin0 j hj
    exact findCLval_of_scan (scanFirst_intro matchCLAt _ s _ hmatch hminall)

/-! ### The synthesized 500 response: Content-Length, delimiter, close header -/

/-- The part of the synthesized 500 headers before its Content-Length header. -/
def errPreA : List Char :=
  ("HTTP/1.1 500 Internal Server Error\r\nContent-Type: text/plain; charset=utf-8\r\n").toList

theorem errPre_decomp : errPre = errPreA ++ clIns := rfl

theorem findCLval_errHeaders (msg : List Char) :
    findCLval (errHeaders msg) = some (utf16Len msg) := by
  have hE : errHeaders msg = errPreA ++ (clIns ++ (natToChars (utf16Len msg) ++ errPost)) := by
    unfold errHeaders
    rw [errPre_decomp, List.append_assoc, List.append_assoc]
  rw [hE]
  have hlen77 : errPreA.length = 77 := by decide
  have hmatch : matchCLAt ((errPreA ++ (clIns ++ (natToChars (utf16Len msg) ++ errPost))).drop 77) =
      some (16 + (natToChars (utf16Len msg)).length, utf16Len msg) := by
    have hdrop := List.drop_left errPreA (clIns ++ (natToChars (utf16Len msg) ++ errPost))
    rw [hlen77] at hdrop
    rw [hdrop]
    refine matchCLAt_canonical (utf16Len msg) errPost (Or.inr ⟨'\r', ("\nConnection: close").toList, rfl, by decide⟩)
  have hminall : ∀ j, j < 77 →
      matchCLAt ((errPreA ++ (clIns ++ (natToChars (utf16Len msg) ++ errPost))).drop j) = none := by
    intro j hj
    rw [List.drop_append_of_le_length (by omega)]
    by_cases hj63 : j < 63
    · apply matchCLAt_litAt_false
      have hcll : clLit.length = 15 := rfl
      rw [litAt_append (by rw [List.length_drop, hlen77]; omega)]
      have hdec : ∀ jj, jj < 63 → litAt clLit (errPreA.drop jj) = false := by decide
      exact hdec j hj63
    · have hcons : clIns ++ (natToChars (utf16Len msg) ++ errPost) =
          'C' :: (("ontent-Length: ".toList) ++ (natToChars (utf16Len msg) ++ errPost)) := rfl
      rw [hcons]
      apply matchCLAt_litAt_false
      refine litAt_short_c _ ?_ ?_ (by decide)
      · intro hcon
        have hlc := congrArg List.length hcon
        rw [List.length_drop, hlen77] at hlc
        simp at hlc
        omega
      · rw [List.length_drop, hlen77]; omega
  exact findCLval_of_scan (scanFirst_intro matchCLAt _ 77 _ hmatch hminall)

theorem errHeaders_length (msg : List Char) :
    (errHeaders msg).length = 93 + (natToChars (utf16Len msg)).length + 19 := by
  unfold errHeaders
  rw [List.length_append, List.length_append]
  have h1 : errPre.length = 93 := by decide
  have h2 : errPost.length = 19 := by decide
  omega

theorem errHeaders_no_delim (msg : List Char) :
    ∀ j, j < (errHeaders msg).length →
      ((errHeaders msg ++ delim).drop j).take 4 ≠ delim := by
  intro j hj hcon
  have h93 : errPre.length = 93 := by decide
  obtain ⟨hne, hdig, _⟩ := natToChars_spec (utf16Len msg)
  obtain ⟨d0, D1, hD⟩ : ∃ d0 D1, natToChars (utf16Len msg) = d0 :: D1 := by
    cases hh : natToChars (utf16Len msg) with
    | nil => exact absurd hh hne
    | cons a b2 => exact ⟨a, b2, rfl⟩
  have hlen := errHeaders_length msg
  have hshape1 : errHeaders msg ++ delim =
      errPre ++ (natToChars (utf16Len msg) ++ (errPost ++ delim)) := by
    unfold errHeaders
    rw [List.append_assoc, List.append_assoc]
  by_cases hj90 : j + 4 ≤ 93
  · rw [hshape1, List.drop_append_of_le_length (by omega),
      List.take_append_of_le_length (by rw [List.length_drop]; omega)] at hcon
    have hdec : ∀ jj, jj < 90 → ¬((errPre.drop jj).take 4 = delim) := by decide
    exact hdec j (by omega) hcon
  · by_cases hjD : j < 93 + (natToChars (utf16Len msg)).length
    · -- the delimiter window would overlap the digit block
      obtain ⟨k, hk4, hge93, hlt⟩ : ∃ k, k < 4 ∧ 93 ≤ j + k ∧
          j + k - 93 < (natToChars (utf16Len msg)).length := by
        have hD1 : (natToChars (utf16Len msg)).length = D1.length + 1 := by rw [hD]; rfl
        by_cases hj93 : j < 93
        · exact ⟨93 - j, by omega, by omega, by omega⟩
        · exact ⟨0, by omega, by omega, by omega⟩
      have hget := take4_get hcon k hk4
      rw [List.getElem?_drop, hshape1, List.getElem?_append, h93, if_neg (by omega),
        List.getElem?_append, if_pos hlt, List.getElem?_eq_getElem hlt] at hget
      have hdigE : isDigit ((natToChars (utf16Len msg))[j + k - 93]) = true :=
        hdig _ (List.getElem_mem hlt)
      have hdelimk : ∀ e, delim[k]? = some e → isDigit e = false :=
        (by decide : ∀ kk, kk < 4 → ∀ e, delim[kk]? = some e → isDigit e = false) k hk4
      have hcontr := hdelimk _ hget.symm
      rw [hdigE] at hcontr
      exact absurd hcontr (by simp)
    · -- inside errPost
      have hshape2 : errHeaders msg ++ delim =
          (errPre ++ natToChars (utf16Len msg)) ++ (errPost ++ delim) := by
        unfold errHeaders
        rw [List.append_assoc]
      have hq : j = (errPre ++ natToChars (utf16Len msg)).length +
          (j - 93 - (natToChars (utf16Len msg)).length) := by
        rw [List.length_append, h93]; omega
      rw [hshape2, hq, List.drop_append] at hcon
      have hdec : ∀ q, q < 19 → ¬(((errPost ++ delim).drop q).take 4 = delim) := by decide
      exact hdec (j - 93 - (natToChars (utf16Len msg)).length) (by omega) hcon

theorem errorResponse_split (msg : List Char) :
    splitHttp (errorResponse msg) = some (errHeaders msg, msg) := by
  have hshape : errorResponse msg = (errHeaders msg ++ delim) ++ msg := by
    unfold errorResponse
    rw [List.append_assoc]
  have hlenHd : (errHeaders msg ++ delim).length = (errHeaders msg).length + 4 := by
    rw [List.length_append]
    rfl
  have hocc : ((errorResponse msg).drop (errHeaders msg).length).take 4 = delim := by
    unfold errorResponse
    rw [List.append_assoc]
    have hdl := List.drop_left (errHeaders msg) (delim ++ msg)
    rw [hdl, List.take_append_of_le_length (by decide)]
    rfl
  have hmin : ∀ j, j < (errHeaders msg).length →
      ((errorResponse msg).drop j).take 4 ≠ delim := by
    intro j hj
    rw [hshape, List.drop_append_of_le_length (by omega),
      List.take_append_of_le_length (by rw [List.length_drop]; omega)]
    exact errHeaders_no_delim msg j hj
  have hfd : firstDelim (errorResponse msg) = some (errHeaders msg).length :=
    firstDelim_intro hocc hmin
  unfold splitHttp
  rw [hfd]
  have htake2 : (errorResponse msg).take (errHeaders msg).length = errHeaders msg := by
    unfold errorResponse
    rw [List.append_assoc]
    exact List.take_left (errHeaders msg) (delim ++ msg)
  have hdrop : (errorResponse msg).drop ((errHeaders msg).length + 4) = msg := by
    rw [hshape]
    have hdl := List.drop_left (errHeaders msg ++ delim) msg
    rw [hlenHd] at hdl
    exact hdl
  show some ((errorResponse msg).take (errHeaders msg).length,
    (errorResponse msg).drop ((errHeaders msg).length + 4)) = some (errHeaders msg, msg)
  rw [htake2, hdrop]

theorem testConnClose_errHeaders (msg : List Char) :
    testConnClose (errHeaders msg) = true := by
  have hdrop : (errHeaders msg).drop ((errPre ++ natToChars (utf16Len msg)).length + 2) =
      ("Connection: close").toList := by
    unfold errHeaders
    have : errPre ++ natToChars (utf16Len msg) ++ errPost =
        (errPre ++ natToChars (utf16Len msg)) ++ errPost := rfl
    rw [this, List.drop_append 2]
    rfl
  have hmc : matchConnAt ((errHeaders msg).drop
      ((errPre ++ natToChars (utf16Len msg)).length + 2)) = some () := by
    rw [hdrop]
    decide
  exact scanFirst_isSome_of matchConnAt _ _ () hmc

/-! ### UTF-16 length versus UTF-8 byte length -/

theorem utf8Len_cons (c : Char) (t : List Char) :
    utf8Len (c :: t) = (utf8Bytes c).length + utf8Len t := by
  unfold utf8Len utf8Encode
  rw [List.map_cons, List.flatten_cons, List.length_append]

theorem utf16Len_cons (c : Char) (t : List Char) :
    utf16Len (c :: t) = utf16Width c + utf16Len t := by
  unfold utf16Len
  rw [List.map_cons, List.sum_cons]

theorem utf8Bytes_ascii {c : Char} (h : c.toNat < 128) :
    (utf8Bytes c).length = 1 ∧ utf16Width c = 1 := by
  have h6 : c.toNat < 65536 := by omega
  simp [utf8Bytes, utf16Width, h, h6]

theorem utf8Bytes_wide {c : Char} (h : 128 ≤ c.toNat) :
    utf16Width c < (utf8Bytes c).length := by
  have hn : ¬(c.toNat < 128) := by omega
  by_cases h2 : c.toNat < 2048
  · have h6 : c.toNat < 65536 := by omega
    simp [utf8Bytes, utf16Width, hn, h2, h6]
  · by_cases h3 : c.toNat < 65536
    · simp [utf8Bytes, utf16Width, hn, h2, h3]
    · simp [utf8Bytes, utf16Width, hn, h2, h3]

theorem utf16_le_utf8 : ∀ s : List Char, utf16Len s ≤ utf8Len s := by
  intro s
  induction s with
  | nil => simp [utf16Len, utf8Len, utf8Encode]
  | cons c t ih =>
    rw [utf16Len_cons, utf8Len_cons]
    by_cases h : c.toNat < 128
    · obtain ⟨h1, h2⟩ := utf8Bytes_ascii h
      omega
    · have hge : 128 ≤ c.toNat := by omega
      have := utf8Bytes_wide hge
      omega

theorem utf16_utf8_ascii : ∀ s : List Char, (∀ c ∈ s, c.toNat < 128) →
    utf16Len s = utf8Len s := by
  intro s
  induction s with
  | nil => intro _; simp [utf16Len, utf8Len, utf8Encode]
  | cons c t ih =>
    intro h
    rw [utf16Len_cons, utf8Len_cons]
    obtain ⟨h1, h2⟩ := utf8Bytes_ascii (h c (by simp))
    rw [h1, h2, ih (fun x hx => h x (by simp [hx]))]

theorem utf16_utf8_wide : ∀ s : List Char, (∃ c ∈ s, 128 ≤ c.toNat) →
    utf16Len s < utf8Len s := by
  intro s
  induction s with
  | nil => intro h; simp at h
  | cons c t ih =>
    intro h
    rw [utf16Len_cons, utf8Len_cons]
    rcases h with ⟨c2, hc2, hge⟩
    rw [List.mem_cons] at hc2
    rcases hc2 with hc2 | hc2
    · subst hc2
      have h1 := utf8Bytes_wide hge
      have h2 := utf16_le_utf8 t
      omega
    · have h1 := ih ⟨c2, hc2, hge⟩
      by_cases hh : c.toNat < 128
      · obtain ⟨ha, hb⟩ := utf8Bytes_ascii hh
        omega
      · have hge : 128 ≤ c.toNat := by omega
        have := utf8Bytes_wide hge
        omega

/-! ### Facts about `flushConn` and the event step -/

theorem flushConn_parts (c : Conn) (a : Nat) :
    (flushConn c a).sent ++ (flushConn c a).sinkQ = c.sent ++ c.sinkQ ∧
      (flushConn c a).closing = c.closing ∧
      (flushConn c a).buffer = c.buffer ∧
      (flushConn c a).history = c.history ∧
      (flushConn c a).outstanding = c.outstanding := by
  unfold flushConn
  by_cases he : c.sinkQ.isEmpty
  · have hnil : c.sinkQ = [] := by
      revert he
      cases c.sinkQ <;> simp
    rw [if_pos he]
    by_cases hcl : c.closing
    · rw [if_pos hcl]
      simp [hnil]
    · rw [if_neg hcl]
      simp [hnil]
  · rw [if_neg he]
    refine ⟨?_, rfl, rfl, rfl, rfl⟩
    simp [List.append_assoc, List.take_append_drop]

theorem flushConn_ended_safe (c : Conn) (a : Nat) (h : (flushConn c a).ended = true) :
    c.ended = true ∨ ((flushConn c a).sinkQ = [] ∧ (flushConn c a).sent = c.sent ∧
      c.sinkQ = []) := by
  unfold flushConn at h ⊢
  by_cases he : c.sinkQ.isEmpty
  · have hnil : c.sinkQ = [] := by
      revert he
      cases c.sinkQ <;> simp
    rw [if_pos he] at h ⊢
    by_cases hcl : c.closing
    · rw [if_pos hcl]
      exact Or.inr ⟨by simp [hnil], by simp, hnil⟩
    · rw [if_neg hcl] at h
      exact Or.inl h
  · rw [if_neg he] at h
    exact Or.inl h

theorem feedAllB_eq (chunks : List (List Nat)) :
    feedAllB chunks = feedAll (chunks.map jsDecode) := by
  unfold feedAllB feedAll feedB
  rw [List.foldl_map]

/-! ### Concrete inputs used by counterexamples and witnesses -/

/-- A complete GET request. -/
def reqA : List Char := ("GET /a HTTP/1.1\r\nHost: x\r\n\r\n").toList

/-- A second complete GET request. -/
def reqB : List Char := ("GET /b HTTP/1.1\r\nHost: y\r\n\r\n").toList

/-- The bytes of two pipelined requests in one TCP chunk. -/
def twoReqBytes : List Nat := utf8Encode (reqA ++ reqB)

/-- The bytes of a request head declaring `Content-Length: 2`. -/
def hdrCL2 : List Nat := utf8Encode (("POST / HTTP/1.1\r\nContent-Length: 2\r\n\r\n").toList)

/-- A responder output with a duplicated Content-Length header. -/
def exDupCL : List Char :=
  ("HTTP/1.1 200 OK\r\nContent-Length: 999\r\nContent-Length: 999\r\n\r\npong").toList

/-- A responder output whose body (but not headers) contains
`Connection: close`. -/
def exBodyClose : List Char := ("HTTP/1.1 200 OK\r\n\r\nConnection: close").toList

/-- A connection with one outstanding responder call. -/
def oneOutConn : Conn := { initConn with outstanding := [reqA] }

/-- A buffered request whose declared length 5 exceeds the 2 buffered body
characters. -/
def c7part : List Char := ("POST / HTTP/1.1\r\nContent-Length: 5\r\n\r\nab").toList

/-- The same request with its full 5-character body. -/
def c7full : List Char := ("POST / HTTP/1.1\r\nContent-Length: 5\r\n\r\nhello").toList

/-! ### UTF-16 code-unit level model of the buffer

JavaScript strings are sequences of UTF-16 code units: `.length`,
`.indexOf` and `.slice` all count and cut code units, and a `.slice`
through a surrogate pair leaves lone surrogates behind, which a scalar
value (code point) model cannot represent.  To state the framing
condition exactly as `onData` computes it, the buffer is modelled here as
a `List Nat` of UTF-16 code units, and the delimiter search, the
Content-Length regex and the slicing of the extraction loop are repeated
at that granularity. -/

/-- The UTF-16 code units of one scalar value: BMP values are one unit,
astral values a surrogate pair. -/
def u16units (c : Char) : List Nat :=
  if c.toNat < 65536 then [c.toNat]
  else [55296 + (c.toNat - 65536) / 1024, 56320 + (c.toNat - 65536) % 1024]

/-- A decoded text as the code-unit sequence of the JS string holding it. -/
def toU16 (s : List Char) : List Nat :=
  (s.map u16units).flatten

/-- Leftmost-match search over code units (a JS regex without the `u` flag
operates on code units). -/
def scanFirstU {α : Type} (m : List Nat → Option α) : List Nat → Option (Nat × α)
  | [] => (m []).map (fun a => (0, a))
  | s@(_ :: t) =>
    match m s with
    | some a => some (0, a)
    | none => (scanFirstU m t).map (fun p => (p.1 + 1, p.2))

/-- The delimiter `"\r\n\r\n"` as code units. -/
def delimU : List Nat := [13, 10, 13, 10]

/-- Matcher for the delimiter at the head of a code-unit sequence. -/
def delimAtU (s : List Nat) : Option Unit :=
  if s.take 4 = delimU then some () else none

/-- `buf.indexOf('\r\n\r\n')` over code units. -/
def firstDelimU (s : List Nat) : Option Nat :=
  (scanFirstU delimAtU s).map (fun p => p.1)

/-- `splitHttp` at code-unit granularity: `indexOf` and both `.slice`
calls count code units. -/
def splitHttpU (buf : List Nat) : Option (List Nat × List Nat) :=
  match firstDelimU buf with
  | none => none
  | some i => some (buf.take i, buf.drop (i + 4))

/-- Case folding of one code unit by `/i` without `u`: ASCII folding per
unit (surrogate units are unchanged). -/
def lowerU (u : Nat) : Nat :=
  if 65 ≤ u ∧ u ≤ 90 then u + 32 else u

/-- The regex class `\d` on a code unit. -/
def isDigitU (u : Nat) : Bool :=
  decide (48 ≤ u ∧ u ≤ 57)

/-- The regex class `\s` on a code unit. -/
def isJsWsU (u : Nat) : Bool :=
  decide (u = 32 ∨ u = 9 ∨ u = 10 ∨ u = 11 ∨ u = 12 ∨ u = 13 ∨ u = 160 ∨ u = 5760 ∨
    (8192 ≤ u ∧ u ≤ 8202) ∨ u = 8232 ∨ u = 8233 ∨ u = 8239 ∨ u = 8287 ∨
    u = 12288 ∨ u = 65279)

/-- Length of the maximal run of code units satisfying `p` at the head. -/
def countWhileU (p : Nat → Bool) : List Nat → Nat
  | [] => 0
  | u :: t => if p u then countWhileU p t + 1 else 0

/-- The Content-Length literal as code units. -/
def clLitU : List Nat := clLit.map Char.toNat

/-- Case-insensitive literal match at the head of a code-unit sequence. -/
def litAtU (lit s : List Nat) : Bool :=
  decide ((s.take lit.length).map lowerU = lit)

/-- Numeric value of a run of digit units. -/
def digitsValU (l : List Nat) : Nat :=
  l.foldl (fun a u => a * 10 + (u - 48)) 0

/-- `/content-length:\s*(\d+)/i` at the head, over code units. -/
def matchCLAtU (s : List Nat) : Option (Nat × Nat) :=
  if litAtU clLitU s then
    let rest := s.drop 15
    let w := countWhileU isJsWsU rest
    let d := countWhileU isDigitU (rest.drop w)
    if d = 0 then none
    else some (15 + w + d, digitsValU ((rest.drop w).take d))
  else none

/-- The first Content-Length match of a code-unit header block. -/
def findCLU (s : List Nat) : Option (Nat × Nat × Nat) :=
  (scanFirstU matchCLAtU s).map (fun p => (p.1, p.2.1, p.2.2))

/-- `clMatch ? Number(clMatch[1]) : 0` over code units. -/
def declaredLenU (hdrs : List Nat) : Nat :=
  match findCLU hdrs with
  | some (_, _, v) => v
  | none => 0

/-- One iteration of the `while (true)` loop of `onData` at code-unit
granularity: the comparison `rest.length < bodyLen` counts code units and
both slices cut at code-unit indices — exactly what the JS `.length` and
`.slice` compute, including a cut through a surrogate pair. -/
def extractStepU (buf : List Nat) : Option (List Nat × List Nat) :=
  match splitHttpU buf with
  | none => none
  | some (hdrs, rest) =>
    let L := declaredLenU hdrs
    if rest.length < L then none
    else some (buf.take (hdrs.length + 4 + L), buf.drop (hdrs.length + 4 + L))

/-- The extraction loop over code units, with fuel. -/
def extractFU : Nat → List Nat → List (List Nat) × List Nat
  | 0, buf => ([], buf)
  | f + 1, buf =>
    match extractStepU buf with
    | none => ([], buf)
    | some (msg, rest) =>
      let p := extractFU f rest
      (msg :: p.1, p.2)

/-- The extraction loop over code units (each step strictly shrinks the
buffer, so its length is enough fuel). -/
def extractU (buf : List Nat) : List (List Nat) × List Nat :=
  extractFU buf.length buf

/-- One `feed` call at code-unit granularity. -/
def feedStepU (st : List (List Nat) × List Nat) (chunk : List Nat) :
    List (List Nat) × List Nat :=
  let p := extractU (st.2 ++ chunk)
  (st.1 ++ p.1, p.2)

/-- One `onData` call at the byte level in the code-unit model: decode the
chunk with a fresh `TextDecoder` (whose output never holds lone
surrogates), view it as code units, append, extract. -/
def feedBU (st : List (List Nat) × List Nat) (chunk : List Nat) :
    List (List Nat) × List Nat :=
  feedStepU st (toU16 (jsDecode chunk))

/-- Feed a sequence of byte chunks to a fresh code-unit framer. -/
def feedAllBU (chunks : List (List Nat)) : List (List Nat) × List Nat :=
  chunks.foldl feedBU ([], [])

/-- The partial request `c7part` at code-unit granularity. -/
def c7partU : List Nat := toU16 c7part

/-- The full request `c7full` at code-unit granularity. -/
def c7fullU : List Nat := toU16 c7full

/-- A request declaring `Content-Length: 2` whose body is the single astral
character U+1F600 — one code point, but two UTF-16 code units. -/
def c7astro : List Nat :=
  toU16 ((("POST / HTTP/1.1\r\nContent-Length: 2\r\n\r\n").toList) ++ [Char.ofNat 128512])

theorem scanFirstU_some_matches {α : Type} (m : List Nat → Option α) :
    ∀ (s : List Nat) (i : Nat) (a : α), scanFirstU m s = some (i, a) → m (s.drop i) = some a := by
  intro s
  induction s with
  | nil =>
    intro i a h
    cases hm : m [] with
    | none => simp [scanFirstU, hm] at h
    | some b =>
      simp [scanFirstU, hm] at h
      obtain ⟨h1, h2⟩ := h
      rw [List.drop_nil, hm]
      exact congrArg some h2
  | cons c t ih =>
    intro i a h
    cases hm : m (c :: t) with
    | some b =>
      simp [scanFirstU, hm] at h
      rw [← h.1, List.drop_zero, hm, h.2]
    | none =>
      cases hs : scanFirstU m t with
      | none => simp [scanFirstU, hm, hs] at h
      | some p =>
        simp [scanFirstU, hm, hs] at h
        obtain ⟨hi, ha⟩ := h
        rw [← hi, List.drop_succ_cons]
        exact ha ▸ ih p.1 p.2 (by rw [hs])

theorem firstDelimU_occ {s : List Nat} {i : Nat} (h : firstDelimU s = some i) :
    (s.drop i).take 4 = delimU := by
  unfold firstDelimU at h
  cases hs : scanFirstU delimAtU s with
  | none => rw [hs] at h; simp at h
  | some p =>
    rw [hs] at h
    simp at h
    have := scanFirstU_some_matches delimAtU s p.1 p.2 hs
    rw [h] at this
    unfold delimAtU at this
    by_cases hd : (s.drop i).take 4 = delimU
    · exact hd
    · rw [if_neg hd] at this; exact absurd this (by simp)

theorem take4_delimU_length {l : List Nat} (h : l.take 4 = delimU) : 4 ≤ l.length := by
  have := congrArg List.length h
  rw [List.length_take] at this
  simp [delimU] at this
  omega

theorem firstDelimU_bound {s : List Nat} {i : Nat} (h : firstDelimU s = some i) :
    i + 4 ≤ s.length := by
  have h1 := firstDelimU_occ h
  have := take4_delimU_length h1
  rw [List.length_drop] at this
  omega

theorem splitHttpU_some {buf h r : List Nat} (hs : splitHttpU buf = some (h, r)) :
    buf = h ++ delimU ++ r ∧ h.length + 4 ≤ buf.length ∧
      h = buf.take h.length ∧ r = buf.drop (h.length + 4) := by
  unfold splitHttpU at hs
  cases hf : firstDelimU buf with
  | none => rw [hf] at hs; exact absurd hs (by simp)
  | some i =>
    rw [hf] at hs
    simp at hs
    obtain ⟨hh, hr⟩ := hs
    have hb := firstDelimU_bound hf
    have hlen : h.length = i := by
      rw [← hh, List.length_take]; omega
    have hocc := firstDelimU_occ hf
    have e3 : List.drop 4 (List.drop i buf) = List.drop (i + 4) buf := by
      rw [List.drop_drop, Nat.add_comm]
    have hdecomp : buf = h ++ delimU ++ r := by
      calc buf = List.take i buf ++ List.drop i buf := (List.take_append_drop i buf).symm
        _ = List.take i buf ++
            (List.take 4 (List.drop i buf) ++ List.drop 4 (List.drop i buf)) := by
            rw [List.take_append_drop 4 (List.drop i buf)]
        _ = h ++ (delimU ++ r) := by rw [hh, hocc, e3, hr]
        _ = h ++ delimU ++ r := (List.append_assoc h delimU r).symm
    exact ⟨hdecomp, by omega, by rw [hlen, ← hh], by rw [hlen, ← hr]⟩

theorem extractStepU_nil : extractStepU [] = none := by decide

theorem extractStepU_some {buf m rest : List Nat} (h : extractStepU buf = some (m, rest)) :
    m ++ rest = buf ∧ rest.length < buf.length := by
  unfold extractStepU at h
  cases hsp : splitHttpU buf with
  | none => rw [hsp] at h; exact absurd h (by simp)
  | some p =>
    obtain ⟨hd, r⟩ := p
    rw [hsp] at h
    simp at h
    obtain ⟨hdec, hbound, hhd, hrr⟩ := splitHttpU_some hsp
    obtain ⟨hge, hm, hrest⟩ := h
    refine ⟨by rw [← hm, ← hrest, List.take_append_drop], ?_⟩
    rw [← hrest, List.length_drop]
    omega

theorem extractFU_fuel : ∀ (f g : Nat) (buf : List Nat), buf.length ≤ f → buf.length ≤ g →
    extractFU f buf = extractFU g buf := by
  intro f
  induction f with
  | zero =>
    intro g buf hf hg
    have hnil : buf = [] := List.eq_nil_of_length_eq_zero (by omega)
    subst hnil
    cases g with
    | zero => rfl
    | succ g2 => simp [extractFU, extractStepU_nil]
  | succ f2 ih =>
    intro g buf hf hg
    cases g with
    | zero =>
      have hnil : buf = [] := List.eq_nil_of_length_eq_zero (by omega)
      subst hnil
      simp [extractFU, extractStepU_nil]
    | succ g2 =>
      cases hst : extractStepU buf with
      | none => simp [extractFU, hst]
      | some p =>
        obtain ⟨m, rest⟩ := p
        obtain ⟨_, hlen⟩ := extractStepU_some hst
        simp only [extractFU, hst]
        rw [ih g2 rest (by omega) (by omega)]

theorem extractU_unfold (buf : List Nat) :
    extractU buf = match extractStepU buf with
      | none => ([], buf)
      | some p => (p.1 :: (extractU p.2).1, (extractU p.2).2) := by
  cases hst : extractStepU buf with
  | none =>
    cases buf with
    | nil => rfl
    | cons c t => simp [extractU, extractFU, hst]
  | some p =>
    obtain ⟨m, rest⟩ := p
    obtain ⟨_, hlen⟩ := extractStepU_some hst
    cases buf with
    | nil => rw [extractStepU_nil] at hst; exact absurd hst (by simp)
    | cons c t =>
      simp only [extractU, List.length_cons, extractFU, hst]
      rw [extractFU_fuel t.length rest.length rest (by simpa using Nat.lt_succ_iff.mp hlen) le_rfl]

/-! ### Claims -/

/-- C1, counterexample: the claim says request N+1's responder call is not
issued until request N's response has been enqueued, and that two responder
calls are never outstanding together on one connection.  Feeding one TCP
chunk holding two complete pipelined requests to a fresh connection reaches
a state with BOTH responder calls outstanding while no response byte has
been enqueued at all: `handleRequest` is invoked without `await` inside the
`onData` loop. -/
theorem C1_counterexample :
    (runConn [Ev.data twoReqBytes]).outstanding.length = 2 ∧
    (runConn [Ev.data twoReqBytes]).sinkQ = [] ∧
    (runConn [Ev.data twoReqBytes]).sent = [] := by decide

/-- C1, amended: a `data` event issues the responder call for every newly
framed request immediately, in arrival order, without waiting for any
earlier response: after the event the outstanding-call list is the old one
extended by all messages framed from the buffer, and no response bytes are
enqueued or written by the event itself. -/
theorem C1_amended (c : Conn) (bytes : List Nat) :
    (stepConn c (Ev.data bytes)).outstanding =
      c.outstanding ++ (extract (c.buffer ++ jsDecode bytes)).1 ∧
    (stepConn c (Ev.data bytes)).sinkQ = c.sinkQ ∧
    (stepConn c (Ev.data bytes)).sent = c.sent ∧
    (stepConn c (Ev.data bytes)).closing = c.closing ∧
    (stepConn c (Ev.data bytes)).ended = c.ended :=
  ⟨rfl, rfl, rfl, rfl, rfl⟩

/-- C2, counterexample: the claim quantifies over every byte sequence and
every split into chunks.  Splitting the two UTF-8 bytes of `é` (0xC3 0xA9)
across two `onData` calls is a split of the very same byte sequence, yet it
yields a different framed-message sequence than the single-chunk feed,
because each call decodes with a fresh `TextDecoder` and the split bytes
decode to two replacement characters. -/
theorem C2_counterexample :
    ([hdrCL2 ++ [195], [169]] : List (List Nat)).flatten =
      ([hdrCL2 ++ [195, 169]] : List (List Nat)).flatten ∧
    (feedAllB [hdrCL2 ++ [195], [169]]).1.length = 1 ∧
    (feedAllB [hdrCL2 ++ [195, 169]]).1.length = 0 := by decide

/-- C2, amended: chunk-boundary independence holds at the text level — for
every sequence of decoded text chunks, feeding them one by one produces
exactly the messages and leftover buffer of a single feed of their
concatenation — and hence at the byte level whenever the chunk split does
not cut a UTF-8 character (i.e. whenever per-chunk decoding agrees with
whole-input decoding). -/
theorem C2_amended :
    (∀ chunks : List (List Char), feedAll chunks = extract chunks.flatten) ∧
    (∀ bchunks : List (List Nat),
      jsDecode bchunks.flatten = (bchunks.map jsDecode).flatten →
        feedAllB bchunks = feedAllB [bchunks.flatten]) := by
  have htext : ∀ chunks : List (List Char), feedAll chunks = extract chunks.flatten := by
    intro chunks
    unfold feedAll
    rw [feedAll_extract chunks [] [] extractStep_nil]
    simp
  refine ⟨htext, ?_⟩
  intro bchunks hdist
  rw [feedAllB_eq, feedAllB_eq, htext, htext]
  rw [← hdist]
  simp

/-- C2, witness: splitting two pipelined requests at a character boundary
produces the same result as the single concatenated feed. -/
theorem C2_amended_witness :
    feedAllB [utf8Encode reqA, utf8Encode reqB] =
      feedAllB [([utf8Encode reqA, utf8Encode reqB] : List (List Nat)).flatten] :=
  C2_amended.2 [utf8Encode reqA, utf8Encode reqB] (by decide)

/-- C3, counterexample: the claim says the emitted response's
Content-Length equals the body's byte length, so that no length/body
mismatch reaches the socket.  With duplicated Content-Length headers only
the FIRST regex match is overwritten: the emitted headers still contain a
`Content-Length: 999` match at offset 36 while the actual body is 4 bytes. -/
theorem C3_counterexample :
    processOut exDupCL =
      ("HTTP/1.1 200 OK\r\nContent-Length: 4\r\nContent-Length: 999\r\n\r\npong").toList ∧
    matchCLAt ((processOut exDupCL).drop 36) = some (19, 999) ∧
    utf8Len ((processOut exDupCL).drop 59) = 4 ∧
    ¬(999 = 4) := by decide

/-- C3, amended: for responder output containing the delimiter, the
post-processing rebuilds the message with the same body, and the FIRST
Content-Length match of the emitted headers — the one a parser reading the
first match sees — declares exactly the body's UTF-8 byte length: the first
existing match is overwritten (later duplicates are left unchanged), and if
none exists a correct header is appended. -/
theorem C3_amended (out : List Char) (i : Nat) (h : firstDelim out = some i) :
    processOut out =
      safeContentLength (out.take i) (out.drop (i + 4)) ++ delim ++ out.drop (i + 4) ∧
    findCLval (safeContentLength (out.take i) (out.drop (i + 4))) =
      some (utf8Len (out.drop (i + 4))) ∧
    (findCL (out.take i) = none →
      safeContentLength (out.take i) (out.drop (i + 4)) =
        out.take i ++ (clInsPre ++ natToChars (utf8Len (out.drop (i + 4))))) ∧
    (∀ s l v, findCL (out.take i) = some (s, l, v) →
      safeContentLength (out.take i) (out.drop (i + 4)) =
        (out.take i).take s ++ (clIns ++ natToChars (utf8Len (out.drop (i + 4)))) ++
          (out.take i).drop (s + l)) := by
  refine ⟨?_, findCLval_safeContentLength _ _, ?_, ?_⟩
  · unfold processOut
    rw [h]
  · intro hn
    unfold safeContentLength
    rw [hn]
  · intro s l v hs
    unfold safeContentLength
    rw [hs]

/-- C3, witness: on the duplicated-header output the first emitted
Content-Length match equals the 4-byte body length. -/
theorem C3_amended_witness :
    findCLval (safeContentLength (exDupCL.take 57) (exDupCL.drop 61)) =
      some (utf8Len (exDupCL.drop 61)) :=
  (C3_amended exDupCL 57 (by decide)).2.1

/-- C4, counterexample: the claim says CloseIntent is set only when the
HEADER block contains the close directive, and that an occurrence only in
the body does not set it.  For a processed response whose headers carry no
`Connection: close` but whose body does, the code still sets `closing`,
because the regex is tested against the whole processed text. -/
theorem C4_counterexample :
    (splitHttp (processOut exBodyClose)).map
      (fun p => (testConnClose p.1, testConnClose p.2)) = some (false, true) ∧
    (stepConn oneOutConn (Ev.done 0 exBodyClose 100)).closing = true := by decide

/-- C4, amended: after a responder call settles, CloseIntent is set iff it
was already set or the case-insensitive pattern `connection:`-whitespace-
`close` occurs ANYWHERE in the processed text (headers or body); occurrence
is exactly a position at which the matcher succeeds. -/
theorem C4_amended (c : Conn) (idx : Nat) (out : List Char) (accept : Nat)
    (h : idx < c.outstanding.length) :
    ((stepConn c (Ev.done idx out accept)).closing = true ↔
      (c.closing = true ∨ testConnClose (processOut out) = true)) ∧
    (∀ s : List Char, testConnClose s = true ↔ ∃ j, matchConnAt (s.drop j) = some ()) := by
  constructor
  · show (doneConn c idx out accept).closing = true ↔ _
    unfold doneConn
    rw [if_pos h]
    rw [(flushConn_parts _ accept).2.1]
    simp [Bool.or_eq_true]
  · intro s
    constructor
    · intro ht
      obtain ⟨j, a, hj⟩ := scanFirst_isSome_elim matchConnAt s ht
      exact ⟨j, by cases a; exact hj⟩
    · intro hex
      obtain ⟨j, hj⟩ := hex
      exact scanFirst_isSome_of matchConnAt s j () hj

/-- C4, witness: on the body-close output, the settled call sets closing,
matching the occurrence-anywhere characterisation. -/
theorem C4_amended_witness :
    (stepConn oneOutConn (Ev.done 0 exBodyClose 100)).closing = true ↔
      (oneOutConn.closing = true ∨ testConnClose (processOut exBodyClose) = true) :=
  (C4_amended oneOutConn 0 exBodyClose 100 (by decide)).1

theorem stepConn_conserve (c : Conn) (e : Ev) :
    (stepConn c e).sent ++ (stepConn c e).sinkQ = c.sent ++ c.sinkQ ++ enqBytes c e := by
  cases e with
  | data bs => simp [stepConn, onDataConn, enqBytes]
  | drain a =>
    simp only [stepConn, enqBytes]
    rw [List.append_nil]
    exact (flushConn_parts c a).1
  | done idx out a =>
    simp only [stepConn, enqBytes]
    unfold doneConn
    by_cases hidx : idx < c.outstanding.length
    · rw [if_pos hidx, if_pos hidx, (flushConn_parts _ a).1]
      simp [List.append_assoc]
    · rw [if_neg hidx, if_neg hidx]
      simp
  | fail idx m a =>
    simp only [stepConn, enqBytes]
    unfold failConn
    by_cases hidx : idx < c.outstanding.length
    · rw [if_pos hidx, if_pos hidx, (flushConn_parts _ a).1]
      simp [List.append_assoc]
    · rw [if_neg hidx, if_neg hidx]
      simp

theorem stepConn_ended_safe (c : Conn) (e : Ev) (h : (stepConn c e).ended = true) :
    c.ended = true ∨ ((stepConn c e).sinkQ = [] ∧ (stepConn c e).sent = c.sent) := by
  cases e with
  | data bs => exact Or.inl h
  | drain a =>
    simp only [stepConn] at h ⊢
    rcases flushConn_ended_safe c a h with h1 | h2
    · exact Or.inl h1
    · exact Or.inr ⟨h2.1, h2.2.1⟩
  | done idx out a =>
    simp only [stepConn] at h ⊢
    unfold doneConn at h ⊢
    by_cases hidx : idx < c.outstanding.length
    · rw [if_pos hidx] at h ⊢
      rcases flushConn_ended_safe _ a h with h1 | h2
      · exact Or.inl (by simpa using h1)
      · exact Or.inr ⟨h2.1, by simpa using h2.2.1⟩
    · rw [if_neg hidx] at h ⊢
      exact Or.inl h
  | fail idx m a =>
    simp only [stepConn] at h ⊢
    unfold failConn at h ⊢
    by_cases hidx : idx < c.outstanding.length
    · rw [if_pos hidx] at h ⊢
      rcases flushConn_ended_safe _ a h with h1 | h2
      · exact Or.inl (by simpa using h1)
      · exact Or.inr ⟨h2.1, by simpa using h2.2.1⟩
    · rw [if_neg hidx] at h ⊢
      exact Or.inl h

/-- C5: the socket is ended only at a step that finds the output queue
empty — such a step neither sends nor drops anything — and along every
event trace the bytes handed to the socket followed by the bytes still
queued are exactly the bytes enqueued, in order: no buffered byte is ever
dropped or duplicated. -/
theorem C5_ordering :
    (∀ (c : Conn) (e : Ev), (stepConn c e).ended = true →
      c.ended = true ∨ ((stepConn c e).sinkQ = [] ∧ (stepConn c e).sent = c.sent)) ∧
    (∀ (c : Conn) (evs : List Ev),
      (evs.foldl stepConn c).sent ++ (evs.foldl stepConn c).sinkQ =
        c.sent ++ c.sinkQ ++ enqAlong c evs) := by
  refine ⟨stepConn_ended_safe, ?_⟩
  intro c evs
  induction evs generalizing c with
  | nil => simp [enqAlong]
  | cons e t ih =>
    rw [List.foldl_cons, ih (stepConn c e)]
    rw [show enqAlong c (e :: t) = enqBytes c e ++ enqAlong (stepConn c e) t from rfl]
    rw [stepConn_conserve c e]
    simp [List.append_assoc]

/-- C5, witness: a drain event on a closing connection with an empty queue
ends the socket from the empty state without sending anything. -/
theorem C5_ordering_witness :
    ({ initConn with closing := true } : Conn).ended = true ∨
      ((stepConn { initConn with closing := true } (Ev.drain 5)).sinkQ = [] ∧
        (stepConn { initConn with closing := true } (Ev.drain 5)).sent =
          ({ initConn with closing := true } : Conn).sent) :=
  C5_ordering.1 { initConn with closing := true } (Ev.drain 5) (by decide)

theorem flushConn_write (c : Conn) (a : Nat) (hne : c.sinkQ ≠ []) :
    flushConn c a =
      { c with
        sent := c.sent ++ c.sinkQ.take (min a c.sinkQ.length),
        sinkQ := c.sinkQ.drop (min a c.sinkQ.length) } := by
  unfold flushConn
  have hf : ¬(c.sinkQ.isEmpty = true) := by
    cases hq : c.sinkQ with
    | nil => exact absurd hq hne
    | cons x t => simp [hq]
  rw [if_neg hf]

theorem flushConn_empty (c : Conn) (a : Nat) (h : c.sinkQ = []) :
    flushConn c a = if c.closing then { c with ended := true } else c := by
  unfold flushConn
  rw [if_pos (by rw [h]; rfl)]

/-- C6: the response writer is byte-exact under backpressure.  If an
enqueue is followed by a write accepting only a proper prefix and a later
drain that accepts the remainder, the bytes handed to the socket are
exactly the enqueued sequence, in order, with no duplication or loss, and
the socket is not ended; a flush with nothing pending (and no close intent)
is a no-op, and a flush that can make no progress (acceptance 0) is a
no-op, never an error. -/
theorem C6_writer :
    (∀ (c : Conn) (bs : List Nat) (n m : Nat),
      c.sinkQ = [] → c.closing = false → c.ended = false →
      n < bs.length → bs.length - n ≤ m →
      (flushConn { c with sinkQ := c.sinkQ ++ bs } n).sent = c.sent ++ bs.take n ∧
      (flushConn (flushConn { c with sinkQ := c.sinkQ ++ bs } n) m).sent = c.sent ++ bs ∧
      (flushConn (flushConn { c with sinkQ := c.sinkQ ++ bs } n) m).sinkQ = [] ∧
      (flushConn (flushConn { c with sinkQ := c.sinkQ ++ bs } n) m).ended = false) ∧
    (∀ (c : Conn) (k : Nat), c.sinkQ = [] → c.closing = false → flushConn c k = c) ∧
    (∀ (c : Conn), c.closing = false → flushConn c 0 = c) := by
  refine ⟨?_, ?_, ?_⟩
  · intro c bs n m h0 hcl he hn hm
    have hbs : bs ≠ [] := by
      intro hcon
      rw [hcon] at hn
      simp at hn
    have hne1 : ({ c with sinkQ := c.sinkQ ++ bs } : Conn).sinkQ ≠ [] := by
      show c.sinkQ ++ bs ≠ []
      rw [h0, List.nil_append]
      exact hbs
    have hminn : min n (c.sinkQ ++ bs).length = n := by
      rw [h0, List.nil_append]
      exact min_eq_left (Nat.le_of_lt hn)
    have hc1 : flushConn { c with sinkQ := c.sinkQ ++ bs } n =
        { c with sent := c.sent ++ bs.take n, sinkQ := bs.drop n } := by
      rw [flushConn_write _ n hne1]
      show ({ c with
        sent := c.sent ++ (c.sinkQ ++ bs).take (min n (c.sinkQ ++ bs).length),
        sinkQ := (c.sinkQ ++ bs).drop (min n (c.sinkQ ++ bs).length) } : Conn) = _
      rw [hminn, h0, List.nil_append]
    have hlen2 : (bs.drop n).length = bs.length - n := List.length_drop n bs
    have hne2 : bs.drop n ≠ [] := by
      intro hcon
      have hl := congrArg List.length hcon
      rw [hlen2] at hl
      simp at hl
      omega
    have hmin2 : min m (bs.drop n).length = (bs.drop n).length := by
      rw [hlen2]
      exact min_eq_right (by omega)
    have hc2 : flushConn { c with sent := c.sent ++ bs.take n, sinkQ := bs.drop n } m =
        { c with sent := c.sent ++ bs, sinkQ := [] } := by
      rw [flushConn_write _ m hne2]
      show ({ c with
        sent := (c.sent ++ bs.take n) ++ (bs.drop n).take (min m (bs.drop n).length),
        sinkQ := (bs.drop n).drop (min m (bs.drop n).length) } : Conn) = _
      rw [hmin2, List.take_length, List.drop_length, List.append_assoc,
        List.take_append_drop]
    rw [hc1, hc2]
    exact ⟨rfl, rfl, rfl, he⟩
  · intro c k h0 hcl
    rw [flushConn_empty c k h0, if_neg (by rw [hcl]; simp)]
  · intro c hcl
    cases hq : c.sinkQ with
    | nil => rw [flushConn_empty c 0 hq, if_neg (by rw [hcl]; simp)]
    | cons x t =>
      rw [flushConn_write c 0 (by rw [hq]; simp)]
      simp

/-- C6, witness: enqueue four bytes, accept two, drain accepting the rest:
exactly the four original bytes reach the transport. -/
theorem C6_writer_witness :
    (flushConn { initConn with sinkQ := initConn.sinkQ ++ [1, 2, 3, 4] } 2).sent =
      initConn.sent ++ ([1, 2, 3, 4] : List Nat).take 2 ∧
    (flushConn (flushConn { initConn with sinkQ := initConn.sinkQ ++ [1, 2, 3, 4] } 2) 10).sent =
      initConn.sent ++ [1, 2, 3, 4] ∧
    (flushConn (flushConn { initConn with sinkQ := initConn.sinkQ ++ [1, 2, 3, 4] } 2) 10).sinkQ
      = [] ∧
    (flushConn (flushConn { initConn with sinkQ := initConn.sinkQ ++ [1, 2, 3, 4] } 2) 10).ended
      = false :=
  C6_writer.1 initConn [1, 2, 3, 4] 2 10 rfl rfl rfl (by decide) (by decide)

/-- C7, counterexample: the claim counts body BYTES.  A request declaring
`Content-Length: 2` followed by exactly the two bytes 0xC3 0xA9 has all its
declared body bytes buffered, yet the framer emits nothing: the two bytes
decode to the single BMP character `é`, a single UTF-16 code unit, and the
code compares the declared length against `rest.length` of the decoded
string — its code-unit count — not against bytes. -/
theorem C7_counterexample :
    hdrCL2 = utf8Encode (("POST / HTTP/1.1\r\nContent-Length: 2\r\n\r\n").toList) ∧
    declaredLenU (toU16 (("POST / HTTP/1.1\r\nContent-Length: 2").toList)) = 2 ∧
    (feedAllBU [hdrCL2 ++ [195, 169]]).1 = [] ∧
    (feedAllBU [hdrCL2 ++ [195, 169]]).2 ≠ [] := by decide

/-- C7, amended: with the buffer modelled as the UTF-16 code-unit sequence
of the JS string — what `.length` and `.slice` count and cut — the claim
holds: while the part after the first delimiter has fewer code units than
the declared length the extraction loop emits nothing and leaves the
buffer untouched, and once at least that many code units are buffered the
first emitted message is the header block, the delimiter and exactly the
first `declaredLenU` code units of the rest (a slice that can split a
surrogate pair, exactly as the JS slice does). -/
theorem C7_amended (buf h r : List Nat) (hs : splitHttpU buf = some (h, r)) :
    (r.length < declaredLenU h → extractU buf = ([], buf)) ∧
    (declaredLenU h ≤ r.length →
      ∃ ms, (extractU buf).1 = (h ++ delimU ++ r.take (declaredLenU h)) :: ms) := by
  obtain ⟨hdec, hb, hh, hr⟩ := splitHttpU_some hs
  constructor
  · intro hlt
    have hstep : extractStepU buf = none := by
      unfold extractStepU
      rw [hs]
      show (if r.length < declaredLenU h then none
        else some (buf.take (h.length + 4 + declaredLenU h),
          buf.drop (h.length + 4 + declaredLenU h))) = none
      rw [if_pos hlt]
    rw [extractU_unfold, hstep]
  · intro hge
    have hstep : extractStepU buf = some (buf.take (h.length + 4 + declaredLenU h),
        buf.drop (h.length + 4 + declaredLenU h)) := by
      unfold extractStepU
      rw [hs]
      show (if r.length < declaredLenU h then none
        else some (buf.take (h.length + 4 + declaredLenU h),
          buf.drop (h.length + 4 + declaredLenU h))) = _
      rw [if_neg (by omega)]
    have hE : extractU buf = (buf.take (h.length + 4 + declaredLenU h) ::
        (extractU (buf.drop (h.length + 4 + declaredLenU h))).1,
        (extractU (buf.drop (h.length + 4 + declaredLenU h))).2) := by
      rw [extractU_unfold, hstep]
    have htk2 : buf.take (h.length + 4 + declaredLenU h) =
        h ++ delimU ++ r.take (declaredLenU h) := by
      rw [hdec]
      rw [show h.length + 4 + declaredLenU h = (h ++ delimU).length + declaredLenU h by
        rw [List.length_append]; rfl]
      rw [List.take_append]
    rw [hE]
    exact ⟨(extractU (buf.drop (h.length + 4 + declaredLenU h))).1, by rw [htk2]⟩

/-- C7, witness: with `Content-Length: 5` and 2 buffered body units the
loop emits nothing; with the full 5-unit body the message carries exactly
those 5 units; and with `Content-Length: 2` and the astral body U+1F600 —
one code point but two code units — the message IS emitted, its body the
whole surrogate pair. -/
theorem C7_amended_witness :
    extractU c7partU = ([], c7partU) ∧
    (∃ ms, (extractU c7fullU).1 =
      (c7fullU.take 34 ++ delimU ++
        (c7fullU.drop 38).take (declaredLenU (c7fullU.take 34))) :: ms) ∧
    (∃ ms, (extractU c7astro).1 =
      (c7astro.take 34 ++ delimU ++
        (c7astro.drop 38).take (declaredLenU (c7astro.take 34))) :: ms) :=
  ⟨(C7_amended c7partU (c7partU.take 34) (c7partU.drop 38) (by decide)).1 (by decide),
    (C7_amended c7fullU (c7fullU.take 34) (c7fullU.drop 38) (by decide)).2 (by decide),
    (C7_amended c7astro (c7astro.take 34) (c7astro.drop 38) (by decide)).2 (by decide)⟩

/-- C8: a single feed of two complete back-to-back requests — complete in
the sense that each alone is framed as exactly one message consuming the
whole input — produces exactly those two messages, in arrival order, and
leaves the buffer empty. -/
theorem C8_pipelining (r1 r2 : List Char) (h1 : extract r1 = ([r1], []))
    (h2 : extract r2 = ([r2], [])) : extract (r1 ++ r2) = ([r1, r2], []) := by
  rw [extract_append r1.length r1 r2 le_rfl, h1]
  simp [h2]

/-- C8, witness: two concrete GET requests concatenated in one chunk frame
as exactly the two requests with an empty leftover buffer. -/
theorem C8_pipelining_witness : extract (reqA ++ reqB) = ([reqA, reqB], []) :=
  C8_pipelining reqA reqB (by decide) (by decide)

/-- C9: when an outstanding responder call fails, the session sets
CloseIntent, enqueues exactly the bytes of the synthesized response and
nothing else (they are flushed per the socket's acceptance), removes the
settled call, and pushes no conversation turn; the synthesized response
splits at its header/body delimiter into the fixed 500 headers and a body
equal to the error message, its status line is
`HTTP/1.1 500 Internal Server Error`, and its headers carry a
`Connection: close` directive. -/
theorem C9_error_response (c : Conn) (idx : Nat) (msg : List Char) (accept : Nat)
    (h : idx < c.outstanding.length) :
    (stepConn c (Ev.fail idx msg accept)).closing = true ∧
    (stepConn c (Ev.fail idx msg accept)).sent ++ (stepConn c (Ev.fail idx msg accept)).sinkQ =
      c.sent ++ c.sinkQ ++ utf8Encode (errorResponse msg) ∧
    (stepConn c (Ev.fail idx msg accept)).outstanding = c.outstanding.eraseIdx idx ∧
    (stepConn c (Ev.fail idx msg accept)).history = c.history ∧
    splitHttp (errorResponse msg) = some (errHeaders msg, msg) ∧
    (errorResponse msg).take 34 = ("HTTP/1.1 500 Internal Server Error").toList ∧
    testConnClose (errHeaders msg) = true := by
  have hfc : stepConn c (Ev.fail idx msg accept) =
      flushConn { c with
        outstanding := c.outstanding.eraseIdx idx,
        closing := true,
        sinkQ := c.sinkQ ++ utf8Encode (errorResponse msg) } accept := by
    simp only [stepConn]
    unfold failConn
    rw [if_pos h]
  obtain ⟨hcons, hclo, hbuf, hhist, hout⟩ := flushConn_parts
    { c with
      outstanding := c.outstanding.eraseIdx idx,
      closing := true,
      sinkQ := c.sinkQ ++ utf8Encode (errorResponse msg) } accept
  refine ⟨?_, ?_, ?_, ?_, errorResponse_split msg, ?_, testConnClose_errHeaders msg⟩
  · rw [hfc, hclo]
  · rw [hfc, hcons]
    simp [List.append_assoc]
  · rw [hfc, hout]
  · rw [hfc, hhist]
  · have hshape : errorResponse msg =
        errPre ++ (natToChars (utf16Len msg) ++ (errPost ++ (delim ++ msg))) := by
      unfold errorResponse errHeaders
      simp [List.append_assoc]
    rw [hshape, List.take_append_of_le_length (by decide)]
    decide

/-- C9, witness: failing the single outstanding call with message `boom`
sets CloseIntent, enqueues exactly the synthesized 500 response, and the
response decomposes as claimed. -/
theorem C9_error_response_witness :
    (stepConn oneOutConn (Ev.fail 0 (("boom").toList) 1000)).closing = true ∧
    (stepConn oneOutConn (Ev.fail 0 (("boom").toList) 1000)).sent ++
        (stepConn oneOutConn (Ev.fail 0 (("boom").toList) 1000)).sinkQ =
      oneOutConn.sent ++ oneOutConn.sinkQ ++ utf8Encode (errorResponse (("boom").toList)) ∧
    (stepConn oneOutConn (Ev.fail 0 (("boom").toList) 1000)).outstanding =
      oneOutConn.outstanding.eraseIdx 0 ∧
    (stepConn oneOutConn (Ev.fail 0 (("boom").toList) 1000)).history = oneOutConn.history ∧
    splitHttp (errorResponse (("boom").toList)) =
      some (errHeaders (("boom").toList), ("boom").toList) ∧
    (errorResponse (("boom").toList)).take 34 =
      ("HTTP/1.1 500 Internal Server Error").toList ∧
    testConnClose (errHeaders (("boom").toList)) = true :=
  C9_error_response oneOutConn 0 (("boom").toList) 1000 (by decide)

/-- C10: the synthesized 500 response declares as Content-Length the
JavaScript string length of the error message — its UTF-16 code-unit count
— while the transmitted body is its UTF-8 encoding; for all-ASCII messages
the two coincide, and for any message containing a non-ASCII character the
declared length is strictly less than the actual byte length. -/
theorem C10_content_length (msg : List Char) :
    findCLval (errHeaders msg) = some (utf16Len msg) ∧
    ((∀ c ∈ msg, c.toNat < 128) → utf16Len msg = utf8Len msg) ∧
    ((∃ c ∈ msg, 128 ≤ c.toNat) → utf16Len msg < utf8Len msg) :=
  ⟨findCLval_errHeaders msg, utf16_utf8_ascii msg, utf16_utf8_wide msg⟩

/-- C10, witness: for the message `é` the declared length 1 under-counts
the 2 transmitted bytes; for the all-ASCII message `ok` the two agree. -/
theorem C10_content_length_witness :
    (findCLval (errHeaders (("é").toList)) = some (utf16Len (("é").toList)) ∧
      utf16Len (("é").toList) < utf8Len (("é").toList)) ∧
    (findCLval (errHeaders (("ok").toList)) = some (utf16Len (("ok").toList)) ∧
      utf16Len (("ok").toList) = utf8Len (("ok").toList)) :=
  ⟨⟨(C10_content_length (("é").toList)).1,
      (C10_content_length (("é").toList)).2.2 (by decide)⟩,
    ⟨(C10_content_length (("ok").toList)).1,
      (C10_content_length (("ok").toList)).2.1 (by decide)⟩⟩
